import Mathlib

/-!
Verification of the tablature timeline engine of `GPT_Tab_CanvasUI.py`
(`MusicXMLTools` repository).

The Python source is shallowly embedded here:
* cells, measures and the document are the `Cell`/`Measure`/`List Measure`
  data of the source, with Python's mutable list indexing rendered as
  `List.getD` / `List.set` (all reachable accesses are in range, so the
  total `getD`/`set` versions agree with the source);
* `while` loops become recursive functions with an explicit termination
  measure, one function per loop, following the loop body literally;
* Python's `float` tick arithmetic (`step_tick = ticks_per_measure /
  steps_per_bar`, `int(round(...))`, banker's rounding) is modelled
  exactly over the rationals `num/den` by `pyRoundDiv` on numerator and
  denominator (the quantities involved are small enough that the double
  computation and the exact rational one round identically);
* `time.monotonic()` timestamps are modelled as rationals supplied by the
  caller.
-/

namespace Tab

/-- The four cell kinds of the `Cell` dataclass (`kind` field). -/
inductive Kind where
  | empty
  | hold
  | note
  | tie
deriving DecidableEq, Repr

/-- `Cell(kind, fret)` of the source; `fret` is `Optional[int]`
(frets written by the editor are non-negative, so `Nat`). -/
structure Cell where
  kind : Kind
  fret : Option Nat
deriving DecidableEq, Repr

/-- `Cell()` — the default (empty) cell. -/
def Cell.mkEmpty : Cell := ⟨Kind.empty, none⟩

instance : Inhabited Cell := ⟨Cell.mkEmpty⟩

/-- `Measure`: `steps_per_bar` and the 6 × steps grid. -/
structure Measure where
  steps_per_bar : Nat
  grid : List (List Cell)
deriving DecidableEq, Repr

instance : Inhabited Measure := ⟨⟨16, List.replicate 6 (List.replicate 16 Cell.mkEmpty)⟩⟩

/-- `Measure(steps_per_bar)` constructor: an all-empty 6 × steps grid. -/
def Measure.new (steps_per_bar : Nat) : Measure :=
  ⟨steps_per_bar, List.replicate 6 (List.replicate steps_per_bar Cell.mkEmpty)⟩

/-- `m.grid[s][t]` (total version; in-range in all reachable states). -/
def Measure.getCell (m : Measure) (s t : Nat) : Cell :=
  (m.grid.getD s []).getD t Cell.mkEmpty

/-- `m.grid[s][t] = c` (total version; in-range in all reachable states). -/
def Measure.setCell (m : Measure) (s t : Nat) (c : Cell) : Measure :=
  { m with grid := m.grid.set s ((m.grid.getD s []).set t c) }

/-- `c.kind in ("note", "tie")`. -/
def Cell.isHead (c : Cell) : Prop := c.kind = Kind.note ∨ c.kind = Kind.tie

instance (c : Cell) : Decidable c.isHead := by unfold Cell.isHead; infer_instance

/-- Python 3 `round` (banker's rounding, half to even) of the exact
rational `num / den`, for non-negative operands. -/
def pyRoundDiv (num den : Nat) : Nat :=
  let q := num / den
  let r := num % den
  if 2 * r < den then q
  else if den < 2 * r then q + 1
  else if q % 2 = 0 then q else q + 1

/-- The head-collection pass of `Measure.resize`: every `(s, t, kind, fret)`
with a `Note`/`Tie` head at `(s, t)`, strings outer, steps inner. -/
def Measure.heads (m : Measure) : List (Nat × Nat × Kind × Option Nat) :=
  (List.range 6).flatMap (fun s =>
    (List.range m.steps_per_bar).filterMap (fun t =>
      let c := m.getCell s t
      if c.isHead then some (s, t, c.kind, c.fret) else none))

/-- `Measure.resize(new_steps)`: no-op on equal resolution, else rebuild an
all-empty grid and re-place each collected head at
`clamp(round(t * new_steps / old_steps))`. -/
def Measure.resize (m : Measure) (new_steps : Nat) : Measure :=
  let old_steps := m.steps_per_bar
  if new_steps = old_steps then m
  else
    let collected := m.heads
    let rebuilt : Measure := ⟨new_steps, List.replicate 6 (List.replicate new_steps Cell.mkEmpty)⟩
    collected.foldl (fun acc h =>
      let nt := min (new_steps - 1) (pyRoundDiv (h.2.1 * new_steps) old_steps)
      acc.setCell h.1 nt ⟨h.2.2.1, h.2.2.2⟩) rebuilt

/-- The hold-erasing loop shared by `_delete_head_and_holds` (from `t+1`)
and `_shorten_from_hold` (from `t`): `while tt < steps_per_bar and
grid[s][tt].kind == "hold": grid[s][tt] = Cell()`. The `fuel` argument is
the loop bound `steps_per_bar - tt` (supplied by `eraseHoldsFrom`); the
loop guard always fails by the time it reaches 0, so the recursion is
structural and kernel-evaluable. -/
def Measure.eraseHoldsFromAux (s : Nat) : Nat → Measure → Nat → Measure
  | 0, m, _ => m
  | fuel + 1, m, tt =>
    if tt < m.steps_per_bar ∧ (m.getCell s tt).kind = Kind.hold then
      Measure.eraseHoldsFromAux s fuel (m.setCell s tt Cell.mkEmpty) (tt + 1)
    else m

def Measure.eraseHoldsFrom (m : Measure) (s tt : Nat) : Measure :=
  Measure.eraseHoldsFromAux s (m.steps_per_bar - tt) m tt

/-- `TabCanvasApp._delete_head_and_holds` restricted to one measure:
clear the head cell, then its forward hold run. -/
def Measure.delete_head_and_holds (m : Measure) (s t : Nat) : Measure :=
  (m.setCell s t Cell.mkEmpty).eraseHoldsFrom s (t + 1)

/-- `TabCanvasApp._shorten_from_hold` restricted to one measure. -/
def Measure.shorten_from_hold (m : Measure) (s t : Nat) : Measure :=
  m.eraseHoldsFrom s t

/-- `TabCanvasApp._delete_tie_chain_forward(start_mi, s, fret)`:
delete step-0 ties of the same fret (and their holds) measure by measure
until the first non-matching step-0 cell. -/
def delete_tie_chain_forwardAux (s fret : Nat) : Nat → List Measure → Nat → List Measure
  | 0, measures, _ => measures
  | fuel + 1, measures, mi =>
    if mi < measures.length then
      let m := measures.getD mi default
      let head := m.getCell s 0
      if head.kind = Kind.tie ∧ head.fret = some fret then
        delete_tie_chain_forwardAux s fret fuel (measures.set mi (m.delete_head_and_holds s 0))
          (mi + 1)
      else measures
    else measures

def delete_tie_chain_forward (measures : List Measure) (mi s fret : Nat) :
    List Measure :=
  delete_tie_chain_forwardAux s fret (measures.length - mi) measures mi

/-- `TabCanvasApp.delete_at_cursor` (cursor passed explicitly). -/
def delete_at_cursor (measures : List Measure) (mi s t : Nat) : List Measure :=
  let m := measures.getD mi default
  let c := m.getCell s t
  if c.kind = Kind.hold then measures.set mi (m.shorten_from_hold s t)
  else if c.isHead then
    let measures2 := measures.set mi (m.delete_head_and_holds s t)
    match c.fret with
    | some fret => delete_tie_chain_forward measures2 (mi + 1) s fret
    | none => measures2
  else measures

/-- The `while remaining > 0` loop of `place_note`: writes holds within the
current measure and, on each boundary crossing, auto-appends a measure when
past the end, deletes a pre-existing head at step 0, and writes the tie
head. Structural recursion on `remaining`. -/
def place_note_loop (measures : List Measure) (s fret mi step : Nat) :
    Nat → List Measure
  | 0 => measures
  | r + 1 =>
    let cm := measures.getD mi default
    let step2 := step + 1
    if step2 ≥ cm.steps_per_bar then
      let mi2 := mi + 1
      let measures2 :=
        if mi2 ≥ measures.length then measures ++ [Measure.new cm.steps_per_bar] else measures
      let nm := measures2.getD mi2 default
      let measures3 :=
        if (nm.getCell s 0).isHead then measures2.set mi2 (nm.delete_head_and_holds s 0)
        else measures2
      let nm2 := measures3.getD mi2 default
      place_note_loop (measures3.set mi2 (nm2.setCell s 0 ⟨Kind.tie, some fret⟩)) s fret mi2 0 r
    else
      place_note_loop (measures.set mi (cm.setCell s step2 ⟨Kind.hold, none⟩)) s fret mi step2 r

/-- `TabCanvasApp.place_note(fret, dur_steps)` with the cursor
`(cur_measure, cur_string, cur_step)` passed explicitly. -/
def place_note (measures : List Measure) (cur_measure cur_string cur_step fret dur_steps : Nat) :
    List Measure :=
  let s := cur_string
  let t := cur_step
  let m := measures.getD cur_measure default
  let measures1 :=
    if (m.getCell s t).kind = Kind.hold then measures.set cur_measure (m.shorten_from_hold s t)
    else measures
  let m1 := measures1.getD cur_measure default
  let measures2 :=
    if (m1.getCell s t).isHead then measures1.set cur_measure (m1.delete_head_and_holds s t)
    else measures1
  let m2 := measures2.getD cur_measure default
  let measures3 := measures2.set cur_measure (m2.setCell s t ⟨Kind.note, some fret⟩)
  place_note_loop measures3 s fret cur_measure t (dur_steps - 1)

/-- The in-measure hold-counting loop of `_calc_note_total_steps`:
number of consecutive `Hold` cells from step `t` on (bounded by
`steps_per_bar`). -/
def Measure.countHoldsAux (m : Measure) (s : Nat) : Nat → Nat → Nat
  | 0, _ => 0
  | fuel + 1, t =>
    if t < m.steps_per_bar ∧ (m.getCell s t).kind = Kind.hold then
      m.countHoldsAux s fuel (t + 1) + 1
    else 0

def Measure.countHolds (m : Measure) (s t : Nat) : Nat :=
  m.countHoldsAux s (m.steps_per_bar - t) t

/-- The tie-chain loop of `_calc_note_total_steps`: steps contributed by
consecutive step-0 `Tie` heads of the same fret from measure `nmi` on. -/
def tieChainStepsAux (measures : List Measure) (s : Nat) (fret : Option Nat) :
    Nat → Nat → Nat
  | 0, _ => 0
  | fuel + 1, nmi =>
    if nmi < measures.length then
      let nm := measures.getD nmi default
      let head := nm.getCell s 0
      if head.kind = Kind.tie ∧ head.fret = fret then
        1 + nm.countHolds s 1 + tieChainStepsAux measures s fret fuel (nmi + 1)
      else 0
    else 0

def tieChainSteps (measures : List Measure) (nmi s : Nat) (fret : Option Nat) : Nat :=
  tieChainStepsAux measures s fret (measures.length - nmi) nmi

/-- `TabCanvasApp._calc_note_total_steps(mi, s, st)`. -/
def calc_note_total_steps (measures : List Measure) (mi s st : Nat) : Nat :=
  let m := measures.getD mi default
  let fret := (m.getCell s st).fret
  1 + m.countHolds s (st + 1) + tieChainSteps measures (mi + 1) s fret

/-- The `while remaining > 0 and mi < len(...)` loop of `_calc_end_tick`;
returns the final `(mi, step)`. Note the source decrements `remaining`
only on non-boundary iterations (the `continue` on crossing skips the
decrement). -/
def endTickLoopAux (measures : List Measure) : Nat → Nat → Nat → Nat → Nat × Nat
  | 0, mi, step, _ => (mi, step)
  | fuel + 1, mi, step, remaining =>
    if 0 < remaining ∧ mi < measures.length then
      let m := measures.getD mi default
      let step2 := step + 1
      if step2 ≥ m.steps_per_bar then endTickLoopAux measures fuel (mi + 1) 0 remaining
      else endTickLoopAux measures fuel mi step2 (remaining - 1)
    else (mi, step)

def endTickLoop (measures : List Measure) (mi step remaining : Nat) : Nat × Nat :=
  endTickLoopAux measures (remaining + measures.length) mi step remaining

/-- `TabCanvasApp._calc_end_tick(start_mi, start_step, dur_steps,
ticks_per_measure)`; `int(round(mi * tpm + step * (tpm / spb)))` is the
exact rational `(mi * tpm * spb + step * tpm) / spb`. -/
def calc_end_tick (measures : List Measure)
    (start_mi start_step dur_steps ticks_per_measure : Nat) : Nat :=
  let fin := endTickLoop measures start_mi start_step dur_steps
  if fin.1 ≥ measures.length then measures.length * ticks_per_measure
  else
    let m := measures.getD fin.1 default
    pyRoundDiv (fin.1 * ticks_per_measure * m.steps_per_bar + fin.2 * ticks_per_measure)
      m.steps_per_bar

/-- `TUNING_MIDI = [64, 59, 55, 50, 45, 40]` (E4, B3, G3, D3, A2, E2). -/
def TUNING_MIDI : List Nat := [64, 59, 55, 50, 45, 40]

/-- The event payloads built by `export_midi` (tempo meta, program change,
note on, note off). The raw bytes of the source are abstracted to their
decoded fields; `pitch` carries the already-masked `pitch & 0x7F`. -/
inductive MidiMsg where
  | tempo (mpqn : Nat)
  | prog (p : Nat)
  | noteOn (pitch vel : Nat)
  | noteOff (pitch vel : Nat)
deriving DecidableEq, Repr

abbrev MidiEvent := Nat × MidiMsg

/-- The editor state consumed by the exporters: the measure list plus the
metadata the UI holds in `tk` variables (`bpm_str`, `midi_prog`,
`transpose_str`). -/
structure AppState where
  measures : List Measure
  bpm : Nat
  midi_prog : Int
  transpose : String
deriving DecidableEq, Repr

/-- `clamp(v, lo, hi)` from the source. -/
def clamp (v lo hi : Int) : Int := if v < lo then lo else if hi < v then hi else v

/-- `get_bpm`: the parsed BPM clamped to `[30, 300]` (string parsing is
outside the model; the state already holds the parsed integer). -/
def get_bpm (st : AppState) : Nat := max 30 (min 300 st.bpm)

/-- The event list built by `TabCanvasApp.export_midi` before it is handed
to `write_midi_file`: tempo and program-change at tick 0, then a note-on /
note-off pair for every `Note` head with a fret. -/
def export_midi_events (st : AppState) : List MidiEvent :=
  let bpm := get_bpm st
  let mpqn := 60000000 / max 1 bpm
  let ppq := 480
  let ticks_per_measure := ppq * 4
  let prog := clamp st.midi_prog 0 127
  [(0, MidiMsg.tempo mpqn), (0, MidiMsg.prog prog.toNat)] ++
    (List.range st.measures.length).flatMap (fun mi =>
      let m := st.measures.getD mi default
      (List.range 6).flatMap (fun s =>
        (List.range m.steps_per_bar).flatMap (fun stp =>
          let c := m.getCell s stp
          if c.kind = Kind.note ∧ c.fret ≠ none then
            let fret := c.fret.getD 0
            let pitch := TUNING_MIDI.getD s 0 + fret
            let start_tick :=
              pyRoundDiv (mi * ticks_per_measure * m.steps_per_bar + stp * ticks_per_measure)
                m.steps_per_bar
            let dur_steps := calc_note_total_steps st.measures mi s stp
            let end_tick := calc_end_tick st.measures mi stp dur_steps ticks_per_measure
            [(start_tick, MidiMsg.noteOn (pitch % 128) 100),
             (end_tick, MidiMsg.noteOff (pitch % 128) 0)]
          else [])))

/-- The key comparison of `sorted(events, key=lambda x: x[0])`. -/
def evKeyLe (a b : MidiEvent) : Prop := a.1 ≤ b.1

instance : DecidableRel evKeyLe := fun a b => Nat.decLe a.1 b.1

instance : IsTotal MidiEvent evKeyLe := ⟨fun a b => Nat.le_total a.1 b.1⟩

instance : IsTrans MidiEvent evKeyLe := ⟨fun _ _ _ h1 h2 => Nat.le_trans h1 h2⟩

/-- `sorted(events, key=lambda x: x[0])`: Python's stable sort, modelled by
the (also stable) insertion sort on the tick key. -/
def sorted_events (evs : List MidiEvent) : List MidiEvent :=
  List.insertionSort evKeyLe evs

/-- The delta-time computation of `write_midi_file` (`dt = tick - last`),
starting from `last = 0`. -/
def delta_encode : Int → List Nat → List Int
  | _, [] => []
  | last, t :: ts => ((t : Int) - last) :: delta_encode (t : Int) ts

/-- Recovering absolute ticks from delta times (cumulative sums). -/
def delta_decode : Int → List Int → List Int
  | _, [] => []
  | last, d :: ds => (last + d) :: delta_decode (last + d) ds

/-- The delta times of the track `write_midi_file` writes for the
`export_midi` event list (the end-of-track meta marker carries delta 0 and
no tick of its own). -/
def written_track_deltas (st : AppState) : List Int :=
  delta_encode 0 ((sorted_events (export_midi_events st)).map Prod.fst)

/-- Note heads (`kind == "note"` with a fret) of one measure, as counted by
the export loop. -/
def Measure.noteHeadCount (m : Measure) : Nat :=
  ((List.range 6).map (fun s =>
    ((List.range m.steps_per_bar).filter (fun t =>
      (m.getCell s t).kind = Kind.note ∧ (m.getCell s t).fret ≠ none)).length)).sum

/-- Note heads of the whole document. -/
def noteHeadCount (measures : List Measure) : Nat :=
  ((List.range measures.length).map (fun mi => (measures.getD mi default).noteHeadCount)).sum

/-- `TabCanvasApp._pos_next(mi, step)`. -/
def pos_next (measures : List Measure) (mi step : Nat) : Option (Nat × Nat) :=
  if mi ≥ measures.length then none
  else
    if step + 1 < (measures.getD mi default).steps_per_bar then some (mi, step + 1)
    else if mi + 1 ≥ measures.length then none
    else some (mi + 1, 0)

/-- `TabCanvasApp._pos_prev(mi, step)`. -/
def pos_prev (measures : List Measure) (mi step : Nat) : Option (Nat × Nat) :=
  if mi ≥ measures.length then none
  else if 0 < step then some (mi, step - 1)
  else if mi = 0 then none
  else
    let pm := measures.getD (mi - 1) default
    some (mi - 1, pm.steps_per_bar - 1)

/-- The hold-consuming loop of `_note_end_pos`: advance `cur` while the
next position is in the same measure (`cur + 1 < steps_per_bar`, which is
exactly when `_pos_next` stays in the measure) and holds a `Hold`. -/
def consume_holdsAux (m : Measure) (s : Nat) : Nat → Nat → Nat
  | 0, cur => cur
  | fuel + 1, cur =>
    if cur + 1 < m.steps_per_bar ∧ (m.getCell s (cur + 1)).kind = Kind.hold then
      consume_holdsAux m s fuel (cur + 1)
    else cur

def consume_holds (m : Measure) (s cur : Nat) : Nat :=
  consume_holdsAux m s (m.steps_per_bar - cur) cur

/-- The `while True` tie-chain loop of `_note_end_pos`, entered with the
candidate end position `(nmi, ns)`: keep walking while that position is a
step-0 `Tie` head of the same fret, consuming its holds. -/
def note_end_chainAux (measures : List Measure) (s : Nat) (fret : Option Nat) :
    Nat → Nat → Nat → Option (Nat × Nat)
  | 0, nmi, ns => some (nmi, ns)
  | fuel + 1, nmi, ns =>
    if nmi < measures.length ∧ ns = 0 ∧
        ((measures.getD nmi default).getCell s 0).kind = Kind.tie ∧
        ((measures.getD nmi default).getCell s 0).fret = fret then
      let m := measures.getD nmi default
      let c := consume_holds m s 0
      match pos_next measures nmi c with
      | none => none
      | some p => note_end_chainAux measures s fret fuel p.1 p.2
    else some (nmi, ns)

def note_end_chain (measures : List Measure) (s : Nat) (fret : Option Nat)
    (nmi ns : Nat) : Option (Nat × Nat) :=
  note_end_chainAux measures s fret (2 * measures.length + 1) nmi ns

/-- `TabCanvasApp._note_end_pos(mi, s, head_step)`: the first position
after the note (holds, then the forward tie chain), or `none` past the
document end. -/
def note_end_pos (measures : List Measure) (mi s head_step : Nat) : Option (Nat × Nat) :=
  if mi ≥ measures.length then none
  else
    let m := measures.getD mi default
    let c := m.getCell s head_step
    if c.isHead ∧ c.fret ≠ none then
      let cur := consume_holds m s head_step
      match pos_next measures mi cur with
      | none => none
      | some p => note_end_chain measures s c.fret p.1 p.2
    else none

/-- The backward search of `tie_back` for the nearest prior head of the
same fret, examining the position it is given and walking `_pos_prev`. -/
def find_prev_headAux (measures : List Measure) (s fret : Nat) :
    Nat → Nat → Nat → Option (Nat × Nat)
  | 0, _, _ => none
  | fuel + 1, pmi, ps =>
    let c := (measures.getD pmi default).getCell s ps
    if c.isHead ∧ c.fret = some fret then some (pmi, ps)
    else
      match pos_prev measures pmi ps with
      | none => none
      | some q => find_prev_headAux measures s fret fuel q.1 q.2

def find_prev_head (measures : List Measure) (s fret : Nat) (pmi ps : Nat) :
    Option (Nat × Nat) :=
  find_prev_headAux measures s fret
    (ps + 2 + ((measures.map (fun m => m.steps_per_bar + 1)).sum)) pmi ps

/-- The whole backward search of `tie_back` (`p = _pos_prev(mi, t)`
followed by the scan): the nearest prior same-fret head before `(mi, t)`,
if any. -/
def prev_head_of (measures : List Measure) (mi s t fret : Nat) : Option (Nat × Nat) :=
  match pos_prev measures mi t with
  | none => none
  | some p => find_prev_head measures s fret p.1 p.2

/-- `TabCanvasApp.tie_back()` with the cursor passed explicitly:
toggle a `Tie` back to `Note`, or convert a `Note` whose nearest prior
same-fret head ends exactly at it into a `Tie`; otherwise a no-op. -/
def tie_back (measures : List Measure) (mi s t : Nat) : List Measure :=
  let m := measures.getD mi default
  let cur := m.getCell s t
  match cur.kind, cur.fret with
  | Kind.tie, some fret => measures.set mi (m.setCell s t ⟨Kind.note, some fret⟩)
  | Kind.note, some fret =>
    match prev_head_of measures mi s t fret with
    | none => measures
    | some ph =>
      if note_end_pos measures ph.1 s ph.2 = some (mi, t) then
        measures.set mi (m.setCell s t ⟨Kind.tie, some fret⟩)
      else measures
  | _, _ => measures

/-- `UNDO_LIMIT = 300`. -/
def UNDO_LIMIT : Nat := 300

/-- `UNDO_BURST_SEC = 0.75` (seconds, as an exact rational). -/
def UNDO_BURST_SEC : ℚ := 3 / 4

/-- The undo-manager state: the snapshot stack (snapshots abstracted to
identifiers), `_undo_last_time`, `_undo_last_tag` and the `_undoing`
re-entrancy flag. -/
structure UndoState where
  undo_stack : List Nat
  undo_last_time : ℚ
  undo_last_tag : Option String
  undoing : Bool
deriving DecidableEq, Repr

/-- `TabCanvasApp.push_undo(tag, burst)`; `snap` is the snapshot
`_snapshot()` would capture and `now` is `time.monotonic()`. -/
def push_undo (st : UndoState) (snap : Nat) (tag : String) (burst : Bool) (now : ℚ) :
    UndoState :=
  if st.undoing then st
  else if burst ∧ st.undo_stack ≠ [] ∧ st.undo_last_tag = some tag ∧
      now - st.undo_last_time ≤ UNDO_BURST_SEC then
    { st with undo_last_time := now }
  else
    let stack2 := st.undo_stack ++ [snap]
    let stack3 := if UNDO_LIMIT < stack2.length then stack2.drop (stack2.length - UNDO_LIMIT)
      else stack2
    { st with undo_stack := stack3, undo_last_time := now, undo_last_tag := some tag }

/-- The `CAND` table of `export_musicxml`:
`(division count, duration name, dot count)`, largest first. -/
def CAND : List (Nat × String × Nat) :=
  [(48, "whole", 0), (36, "half", 1), (24, "half", 0), (18, "quarter", 1),
   (12, "quarter", 0), (9, "eighth", 1), (6, "eighth", 0), (3, "16th", 0)]

/-- The inner `for d, typ, dots in CAND: if d <= remain: ... break` scan:
the first (hence, the table being sorted descending, the largest) candidate
not exceeding `remain`. -/
def find_cand (remain : Nat) : Option (Nat × String × Nat) :=
  CAND.find? (fun c => c.1 ≤ remain)

/-- `split_duration_div(dur_div)`: greedy split over `CAND`; a remainder no
candidate matches (1 or 2) becomes a single untyped `(remain, None, 0)`
chunk. -/
def split_duration_divAux : Nat → Nat → List (Nat × Option String × Nat)
  | 0, _ => []
  | fuel + 1, remain =>
    if remain = 0 then []
    else
      match find_cand remain with
      | some c => (c.1, some c.2.1, c.2.2) :: split_duration_divAux fuel (remain - c.1)
      | none => [(remain, none, 0)]

def split_duration_div (dur_div : Nat) : List (Nat × Option String × Nat) :=
  split_duration_divAux dur_div dur_div

/-- One `<note>` element emitted by `emit_note` (pitch kept as its MIDI
number; the `<technical>` block, when present, carries string and fret). -/
structure XmlNote where
  pitch : Nat
  duration : Nat
  typ : Option String
  dots : Nat
  tie_stop : Bool
  tie_start : Bool
  voice : Nat
  is_chord : Bool
  technical : Option (Nat × Nat)
deriving DecidableEq, Repr

/-- `emit_note(...)`: one `XmlNote` per fragment of the duration split;
fragment `i` carries `tie_stop or (i > 0)` and `tie_start or (i < n-1)`. -/
def emit_note (pitch_midi dur_div voice : Nat) (tie_stop tie_start : Bool)
    (add_technical : Bool) (string_no fret : Nat) (is_chord : Bool) : List XmlNote :=
  let parts := split_duration_div dur_div
  let n := parts.length
  parts.mapIdx (fun i pt =>
    { pitch := pitch_midi, duration := pt.1, typ := pt.2.1, dots := pt.2.2,
      tie_stop := tie_stop || decide (0 < i), tie_start := tie_start || decide (i < n - 1),
      voice := voice, is_chord := is_chord,
      technical := if add_technical then some (string_no, fret) else none })

/-- One item of a part body: a silent `<forward>` time-advance or a
`<note>`. -/
inductive XmlItem where
  | forward (dur : Nat)
  | note (n : XmlNote)
deriving DecidableEq, Repr

/-- `emit_forward(dur_div)`: skipped entirely when `dur_div <= 0`. -/
def emit_forward (dur_div : Nat) : List XmlItem :=
  if dur_div = 0 then [] else [XmlItem.forward dur_div]

/-- The step-boundary-to-division map of `emit_part_single_voice`:
`int(round(i * 48 / spb))` for `i = 0..spb`, with the first entry forced to
0 and the last to 48. -/
def step_pos_list (spb measure_div_len : Nat) : List Nat :=
  ((((List.range (spb + 1)).map (fun i => pyRoundDiv (i * measure_div_len) spb)).set 0 0).set
    spb measure_div_len)

/-- The onset collection of `emit_part_single_voice`: steps where any
string carries a `Note`/`Tie` head with a fret (already ascending and
duplicate-free, matching `sorted(set(...))`). -/
def onsets_of (m : Measure) (spb : Nat) : List Nat :=
  (List.range spb).filter (fun t0 =>
    (List.range 6).any (fun s =>
      decide ((m.getCell s t0).isHead ∧ (m.getCell s t0).fret ≠ none)))

/-- The tie flags `emit_part_single_voice` computes for the head at
`(s, t0)`: `tie_stop` for a `Tie` head; `tie_start` for a `Note` head whose
hold run ends on a same-fret `Tie` (in-measure, or at step 0 of the next
measure when the run reaches the bar line). -/
def tie_flags (measures : List Measure) (mi : Nat) (m : Measure) (spb s t0 fret : Nat) :
    Bool × Bool :=
  let c := m.getCell s t0
  let dur_steps := 1 + m.countHolds s (t0 + 1)
  let end_step := min spb (t0 + dur_steps)
  let tie_stop := c.kind = Kind.tie
  let tie_start :=
    if c.kind = Kind.note then
      if end_step < spb then
        let nxt := m.getCell s end_step
        nxt.kind = Kind.tie ∧ nxt.fret = some fret
      else if mi + 1 < measures.length then
        let head := (measures.getD (mi + 1) default).getCell s 0
        head.kind = Kind.tie ∧ head.fret = some fret
      else False
    else False
  (decide tie_stop, decide tie_start)

/-- The chord emission of one onset: all heads at step `t0`, the second and
later ones flagged `<chord/>`. -/
def emit_onset_notes (measures : List Measure) (mi : Nat) (m : Measure)
    (spb t0 dur_div_common : Nat) (is_tab : Bool) : List XmlNote :=
  let headStrings := (List.range 6).filter (fun s =>
    decide ((m.getCell s t0).isHead ∧ (m.getCell s t0).fret ≠ none))
  (headStrings.mapIdx (fun i s =>
    let c := m.getCell s t0
    let fret := c.fret.getD 0
    let pitch := TUNING_MIDI.getD s 0 + fret
    let flags := tie_flags measures mi m spb s t0 fret
    emit_note pitch dur_div_common 1 flags.1 flags.2 is_tab (s + 1) fret
      (decide (0 < i)))).flatten

/-- The per-onset loop of `emit_part_single_voice` (gap `<forward>`s, the
chord at each onset, the updated cursor), followed by the trailing
`<forward>` to the bar line. -/
def emit_onset_loop (measures : List Measure) (mi : Nat) (m : Measure)
    (spb : Nat) (sp : List Nat) (is_tab : Bool) :
    List Nat → Nat → List XmlItem
  | [], cursor_step =>
    if cursor_step < spb then emit_forward (sp.getD spb 0 - sp.getD cursor_step 0) else []
  | t0 :: rest, cursor_step =>
    let gap := if cursor_step < t0 then emit_forward (sp.getD t0 0 - sp.getD cursor_step 0)
      else []
    let t1raw := match rest.head? with | some u => u | none => spb
    let t1 := if t1raw ≤ t0 then min spb (t0 + 1) else t1raw
    let dur_div_common := sp.getD t1 0 - sp.getD t0 0
    if dur_div_common = 0 then
      gap ++ emit_onset_loop measures mi m spb sp is_tab rest (max cursor_step t1)
    else
      let notes := emit_onset_notes measures mi m spb t0 dur_div_common is_tab
      let body := if notes = [] then emit_forward dur_div_common else notes.map XmlItem.note
      gap ++ body ++ emit_onset_loop measures mi m spb sp is_tab rest (max cursor_step t1)

/-- One measure of `emit_part_single_voice`: a single silent advance for an
onset-free measure, else the onset loop. -/
def emit_measure_items (measures : List Measure) (mi : Nat) (is_tab : Bool) : List XmlItem :=
  let m := measures.getD mi default
  let spb := if 0 < m.steps_per_bar then m.steps_per_bar else 16
  let measure_div_len := 48
  let sp := step_pos_list spb measure_div_len
  let onsets := onsets_of m spb
  if onsets = [] then emit_forward measure_div_len
  else emit_onset_loop measures mi m spb sp is_tab onsets 0

/-- The body of one `<part>` (`emit_part_single_voice`), as emitted items
measure by measure. -/
def emit_part_single_voice (measures : List Measure) (is_tab : Bool) : List XmlItem :=
  (List.range measures.length).flatMap (fun mi => emit_measure_items measures mi is_tab)

/-- `export_musicxml` note/forward output: part P1 (pitched) followed by
part P2 (TAB with `<technical>` annotations), both from the same grid. -/
def export_musicxml_items (st : AppState) : List XmlItem :=
  emit_part_single_voice st.measures false ++ emit_part_single_voice st.measures true

/-- The `meta` block of `model_to_dict` (with `transpose` stored as the
stripped text of `transpose_str`). -/
structure MetaDict where
  bpm : Nat
  midi_prog : Int
  transpose : String
deriving DecidableEq, Repr

/-- The persisted-document shape produced by `TabCanvasApp.model_to_dict`. -/
structure ModelDict where
  version : Nat
  tuning_midi : List Nat
  measures : List Measure
  meta : MetaDict
deriving DecidableEq, Repr

/-- `TabCanvasApp.model_to_dict()`. -/
def model_to_dict (st : AppState) : ModelDict :=
  { version := 1, tuning_midi := TUNING_MIDI, measures := st.measures,
    meta := { bpm := get_bpm st, midi_prog := st.midi_prog, transpose := st.transpose.trim } }

/-- Walking forward `n` grid positions with `_pos_next` — the end-of-note
walk as the specification words it ("the tick reached by walking forward
exactly `note_total_steps` grid positions from the head"). Modelled from
the spec for comparison against `_calc_end_tick`. -/
def spec_walk_pos (measures : List Measure) : Nat → Nat × Nat → Option (Nat × Nat)
  | 0, p => some p
  | n + 1, p =>
    match pos_next measures p.1 p.2 with
    | none => none
    | some q => spec_walk_pos measures n q

/-- The note-off tick the specification describes: the tick of the
position `note_total_steps` positions after the head (each measure's own
`step_tick`), or the end of the document if the walk runs off it.
Modelled from the spec for comparison against `_calc_end_tick`. -/
def spec_off_tick (measures : List Measure) (mi stp n ticks_per_measure : Nat) : Nat :=
  match spec_walk_pos measures n (mi, stp) with
  | some p =>
    let m := measures.getD p.1 default
    pyRoundDiv (p.1 * ticks_per_measure * m.steps_per_bar + p.2 * ticks_per_measure)
      m.steps_per_bar
  | none => measures.length * ticks_per_measure

/-- The destination step a head at old step `t` is re-placed at by
`Measure.resize` (its `nt`). -/
def resize_dest (old_steps new_steps t : Nat) : Nat :=
  min (new_steps - 1) (pyRoundDiv (t * new_steps) old_steps)

/-- `MidiMsg` classifiers used to count note events. -/
def MidiMsg.isOn : MidiMsg → Bool
  | MidiMsg.noteOn _ _ => true
  | _ => false

def MidiMsg.isOff : MidiMsg → Bool
  | MidiMsg.noteOff _ _ => true
  | _ => false

/-- The number of consecutive measures from `mi` on whose step-0 cell on
string `s` is a `Tie` of fret `fret` — the length of the chain
`_delete_tie_chain_forward` erases. -/
def tie_chain_lenAux (measures : List Measure) (s fret : Nat) : Nat → Nat → Nat
  | 0, _ => 0
  | fuel + 1, mi =>
    if mi < measures.length ∧
        ((measures.getD mi default).getCell s 0).kind = Kind.tie ∧
        ((measures.getD mi default).getCell s 0).fret = some fret then
      1 + tie_chain_lenAux measures s fret fuel (mi + 1)
    else 0

def tie_chain_len (measures : List Measure) (mi s fret : Nat) : Nat :=
  tie_chain_lenAux measures s fret (measures.length - mi) mi

/-- The fresh single-measure document the editor starts from. -/
def freshDoc : List Measure := [Measure.new 16]

/-- The document of the cross-measure scenario: an 18-step fret-3 note
placed at string 0, step 0 of the fresh 16-step document. -/
def scenarioDoc : List Measure := place_note freshDoc 0 0 0 3 18

/-- A two-measure, 4-step document whose string 0 holds a fret-3 note
spanning measure 0 (head plus 3 holds) tied into measure 1 (step-0 tie
head): the pre-existing-note counterexample input for `place_note`. -/
def tieChainDoc : List Measure :=
  [((((Measure.new 4).setCell 0 0 ⟨Kind.note, some 3⟩).setCell 0 1
      ⟨Kind.hold, none⟩).setCell 0 2 ⟨Kind.hold, none⟩).setCell 0 3 ⟨Kind.hold, none⟩,
   (Measure.new 4).setCell 0 0 ⟨Kind.tie, some 3⟩]

/-- A one-measure document with two simultaneous notes (strings 0 and 1,
step 0): the simultaneous-tick counterexample input for the MIDI track. -/
def chordDoc : List Measure :=
  [((Measure.new 16).setCell 0 0 ⟨Kind.note, some 0⟩).setCell 1 0 ⟨Kind.note, some 0⟩]

/-- A three-measure, 4-step document: measure 0 empty, measure 1 a fret-7
note at step 0 with holds, measure 2 its step-0 tie continuation. Placing
a note from measure 0 across the bar line makes measure 1's step 0 a
crossing destination that holds a head with a tie chain behind it. -/
def crossDestDoc : List Measure :=
  [Measure.new 4,
   (((Measure.new 4).setCell 0 0 ⟨Kind.note, some 7⟩).setCell 0 1
     ⟨Kind.hold, none⟩).setCell 0 2 ⟨Kind.hold, none⟩,
   (Measure.new 4).setCell 0 0 ⟨Kind.tie, some 7⟩]

/-- A one-measure document with a fret-3 note at step 0 holding through
step 2 and a second fret-3 note at step 4: the prior note ends at step 3,
not 4, so `tie_back` at step 4 must refuse. -/
def tieGapDoc : List Measure :=
  [((((Measure.new 16).setCell 0 0 ⟨Kind.note, some 3⟩).setCell 0 1
      ⟨Kind.hold, none⟩).setCell 0 2 ⟨Kind.hold, none⟩).setCell 0 4 ⟨Kind.note, some 3⟩]

/-- Like `tieGapDoc` but with a hold at step 3 as well, so the prior note
ends exactly at step 4 and `tie_back` accepts. -/
def tieAdjDoc : List Measure :=
  [(((((Measure.new 16).setCell 0 0 ⟨Kind.note, some 3⟩).setCell 0 1
      ⟨Kind.hold, none⟩).setCell 0 2 ⟨Kind.hold, none⟩).setCell 0 3
      ⟨Kind.hold, none⟩).setCell 0 4 ⟨Kind.note, some 3⟩]

/-- A one-measure document with a fret-100 note on string 1: its raw
pitch 59 + 100 = 159 exceeds the 7-bit MIDI range, exposing the
`pitch & 0x7F` mask of `export_midi`. -/
def maskDoc : List Measure := [(Measure.new 16).setCell 1 0 ⟨Kind.note, some 100⟩]

/-- A 16-step measure with two heads on string 0 (fret 5 at step 4, fret 9
at step 5): resizing to 4 steps maps both heads to destination step 1, so
the later (larger old step) head must win the collision. -/
def collideMeasure : Measure :=
  ((Measure.new 16).setCell 0 4 ⟨Kind.note, some 5⟩).setCell 0 5 ⟨Kind.note, some 9⟩

/-- Two measures agree on string `s`: same resolution and identical
string-`s` rows. Every string-`s` operation of the engine is invariant
under this relation. -/
def mRel (s : Nat) (m1 m2 : Measure) : Prop :=
  m1.steps_per_bar = m2.steps_per_bar ∧ m1.grid.getD s [] = m2.grid.getD s []

/-- Two documents agree on string `s` measure by measure. -/
def rowRel (s : Nat) (d1 d2 : List Measure) : Prop :=
  d1.length = d2.length ∧ ∀ i, mRel s (d1.getD i default) (d2.getD i default)

end Tab

namespace Tab

/-! ## Generic helpers about cell access and the fueled loops. -/

theorem steps_setCell (m : Measure) (s t : Nat) (c : Cell) :
    (m.setCell s t c).steps_per_bar = m.steps_per_bar := rfl

theorem length_grid_setCell (m : Measure) (s t : Nat) (c : Cell) :
    (m.setCell s t c).grid.length = m.grid.length := by
  simp [Measure.setCell]

theorem getD_set_of_ne {α : Type} {l : List α} {n k : Nat} {a d : α} (h : n ≠ k) :
    (l.set n a).getD k d = l.getD k d := by
  simp [List.getD_eq_getElem?_getD, List.getElem?_set_ne h]

theorem getD_set_self {α : Type} {l : List α} {n : Nat} {a d : α} (h : n < l.length) :
    (l.set n a).getD n d = a := by
  simp [List.getD_eq_getElem?_getD, List.getElem?_set_self, h]

theorem getD_of_le {α : Type} {l : List α} {n : Nat} {d : α} (h : l.length ≤ n) :
    l.getD n d = d := by
  simp [List.getD_eq_getElem?_getD, List.getElem?_eq_none h]

theorem getCell_setCell_ne_row {s u : Nat} (m : Measure) (t v : Nat) (c : Cell)
    (h : s ≠ u) : (m.setCell s t c).getCell u v = m.getCell u v := by
  unfold Measure.setCell Measure.getCell
  rw [getD_set_of_ne h]

theorem getCell_setCell_ne_col {t v : Nat} (m : Measure) (s : Nat) (c : Cell)
    (h : t ≠ v) : (m.setCell s t c).getCell s v = m.getCell s v := by
  unfold Measure.setCell Measure.getCell
  by_cases hs : s < m.grid.length
  · simp only [getD_set_self hs]
    exact getD_set_of_ne h
  · rw [List.set_eq_of_length_le (by omega)]

theorem getCell_setCell_self (m : Measure) (s t : Nat) (c : Cell)
    (hs : s < m.grid.length) (ht : t < (m.grid.getD s []).length) :
    (m.setCell s t c).getCell s t = c := by
  unfold Measure.setCell Measure.getCell
  rw [getD_set_self hs, getD_set_self ht]

theorem getCell_setCell_cases (m : Measure) (s t u v : Nat) (c : Cell) :
    (m.setCell s t c).getCell u v = m.getCell u v ∨
      (m.setCell s t c).getCell u v = c := by
  by_cases hr : s = u
  · subst hr
    by_cases hc : t = v
    · subst hc
      by_cases hs : s < m.grid.length
      · by_cases ht : t < (m.grid.getD s []).length
        · exact Or.inr (getCell_setCell_self m s t c hs ht)
        · left
          unfold Measure.setCell Measure.getCell
          rw [getD_set_self hs, List.set_eq_of_length_le (by omega)]
      · left
        unfold Measure.setCell Measure.getCell
        rw [List.set_eq_of_length_le (by omega)]
    · exact Or.inl (getCell_setCell_ne_col m s c hc)
  · exact Or.inl (getCell_setCell_ne_row m t v c hr)

/-! ## The string-`s` simulation: `mRel`/`rowRel` invariance of the
string-local operations. -/

theorem setCell_row_getD (m : Measure) (s t : Nat) (c : Cell) :
    (m.setCell s t c).grid.getD s [] = (m.grid.getD s []).set t c := by
  show (m.grid.set s ((m.grid.getD s []).set t c)).getD s [] = (m.grid.getD s []).set t c
  by_cases hs : s < m.grid.length
  · exact getD_set_self hs
  · rw [List.set_eq_of_length_le (by omega), getD_of_le (by omega)]
    simp

theorem mRel_getCell {s : Nat} {m1 m2 : Measure} (h : mRel s m1 m2) (t : Nat) :
    m1.getCell s t = m2.getCell s t := by
  unfold Measure.getCell
  rw [h.2]

theorem mRel_setCell {s : Nat} {m1 m2 : Measure} (h : mRel s m1 m2) (t : Nat) (c : Cell) :
    mRel s (m1.setCell s t c) (m2.setCell s t c) :=
  ⟨h.1, by rw [setCell_row_getD, setCell_row_getD, h.2]⟩

theorem mRel_countHoldsAux {s : Nat} {m1 m2 : Measure} (h : mRel s m1 m2) :
    ∀ fuel t, m1.countHoldsAux s fuel t = m2.countHoldsAux s fuel t := by
  intro fuel
  induction fuel with
  | zero => intro t; rfl
  | succ f ih =>
    intro t
    unfold Measure.countHoldsAux
    rw [h.1, mRel_getCell h, ih]

theorem mRel_countHolds {s : Nat} {m1 m2 : Measure} (h : mRel s m1 m2) (t : Nat) :
    m1.countHolds s t = m2.countHolds s t := by
  unfold Measure.countHolds
  rw [h.1, mRel_countHoldsAux h]

theorem mRel_eraseHoldsFromAux {s : Nat} :
    ∀ fuel {m1 m2 : Measure} (_ : mRel s m1 m2) (tt : Nat),
      mRel s (Measure.eraseHoldsFromAux s fuel m1 tt) (Measure.eraseHoldsFromAux s fuel m2 tt) := by
  intro fuel
  induction fuel with
  | zero => intro m1 m2 h tt; exact h
  | succ f ih =>
    intro m1 m2 h tt
    unfold Measure.eraseHoldsFromAux
    rw [h.1, mRel_getCell h]
    by_cases hc : tt < m2.steps_per_bar ∧ (m2.getCell s tt).kind = Kind.hold
    · simp only [if_pos hc]
      exact ih (mRel_setCell h tt Cell.mkEmpty) (tt + 1)
    · simp only [if_neg hc]
      exact h

theorem mRel_eraseHoldsFrom {s : Nat} {m1 m2 : Measure} (h : mRel s m1 m2) (tt : Nat) :
    mRel s (m1.eraseHoldsFrom s tt) (m2.eraseHoldsFrom s tt) := by
  unfold Measure.eraseHoldsFrom
  rw [h.1]
  exact mRel_eraseHoldsFromAux _ h tt

theorem mRel_delete_head_and_holds {s : Nat} {m1 m2 : Measure} (h : mRel s m1 m2) (t : Nat) :
    mRel s (m1.delete_head_and_holds s t) (m2.delete_head_and_holds s t) :=
  mRel_eraseHoldsFrom (mRel_setCell h t Cell.mkEmpty) (t + 1)

theorem mRel_shorten_from_hold {s : Nat} {m1 m2 : Measure} (h : mRel s m1 m2) (t : Nat) :
    mRel s (m1.shorten_from_hold s t) (m2.shorten_from_hold s t) :=
  mRel_eraseHoldsFrom h t

theorem rowRel_getD {s : Nat} {d1 d2 : List Measure} (h : rowRel s d1 d2) (i : Nat) :
    mRel s (d1.getD i default) (d2.getD i default) := h.2 i

theorem rowRel_set {s : Nat} {d1 d2 : List Measure} (h : rowRel s d1 d2) (i : Nat)
    {m1 m2 : Measure} (hm : mRel s m1 m2) : rowRel s (d1.set i m1) (d2.set i m2) := by
  obtain ⟨hlen, hmes⟩ := h
  refine ⟨by simp [hlen], ?_⟩
  intro j
  by_cases hij : i = j
  · subst hij
    by_cases hl : i < d1.length
    · rw [getD_set_self hl, getD_set_self (hlen ▸ hl)]
      exact hm
    · rw [List.set_eq_of_length_le (by omega), List.set_eq_of_length_le (by omega)]
      exact hmes i
  · rw [getD_set_of_ne hij, getD_set_of_ne hij]
    exact hmes j

theorem rowRel_append_singleton {s : Nat} {d1 d2 : List Measure} (h : rowRel s d1 d2)
    (m : Measure) : rowRel s (d1 ++ [m]) (d2 ++ [m]) := by
  obtain ⟨hlen, hmes⟩ := h
  refine ⟨by simp [hlen], ?_⟩
  intro j
  by_cases hj : j < d1.length
  · rw [List.getD_eq_getElem?_getD, List.getElem?_append_left hj,
      List.getD_eq_getElem?_getD, List.getElem?_append_left (hlen ▸ hj),
      ← List.getD_eq_getElem?_getD, ← List.getD_eq_getElem?_getD]
    exact hmes j
  · by_cases hj2 : j < d1.length + 1
    · have he1 : j = d1.length := by omega
      rw [List.getD_eq_getElem?_getD, List.getElem?_append_right (by omega),
        List.getD_eq_getElem?_getD, List.getElem?_append_right (by omega), hlen, he1]
      simp [hlen]
      exact ⟨rfl, rfl⟩
    · rw [getD_of_le (by simp; omega), getD_of_le (by simp; omega)]
      exact ⟨rfl, rfl⟩

theorem rowRel_place_note_loop {s : Nat} (fret : Nat) :
    ∀ (rem : Nat) {d1 d2 : List Measure} (_ : rowRel s d1 d2) (mi step : Nat),
      rowRel s (place_note_loop d1 s fret mi step rem) (place_note_loop d2 s fret mi step rem) := by
  intro rem
  induction rem with
  | zero => intro d1 d2 h mi step; exact h
  | succ r ih =>
    intro d1 d2 h mi step
    simp only [place_note_loop]
    rw [(h.2 mi).1, h.1]
    by_cases hb : step + 1 ≥ (d2.getD mi default).steps_per_bar
    · simp only [if_pos hb]
      by_cases ha : mi + 1 ≥ d2.length
      · simp only [if_pos ha]
        have h2 := rowRel_append_singleton h (Measure.new (d2.getD mi default).steps_per_bar)
        rw [mRel_getCell (h2.2 (mi + 1))]
        by_cases hh : ((((d2 ++ [Measure.new (d2.getD mi default).steps_per_bar]).getD
            (mi + 1) default)).getCell s 0).isHead
        · simp only [if_pos hh]
          have h3 := rowRel_set h2 (mi + 1) (mRel_delete_head_and_holds (h2.2 (mi + 1)) 0)
          exact ih (rowRel_set h3 (mi + 1) (mRel_setCell (h3.2 (mi + 1)) 0
            ⟨Kind.tie, some fret⟩)) (mi + 1) 0
        · simp only [if_neg hh]
          exact ih (rowRel_set h2 (mi + 1) (mRel_setCell (h2.2 (mi + 1)) 0
            ⟨Kind.tie, some fret⟩)) (mi + 1) 0
      · simp only [if_neg ha]
        rw [mRel_getCell (h.2 (mi + 1))]
        by_cases hh : (((d2.getD (mi + 1) default)).getCell s 0).isHead
        · simp only [if_pos hh]
          have h3 := rowRel_set h (mi + 1) (mRel_delete_head_and_holds (h.2 (mi + 1)) 0)
          exact ih (rowRel_set h3 (mi + 1) (mRel_setCell (h3.2 (mi + 1)) 0
            ⟨Kind.tie, some fret⟩)) (mi + 1) 0
        · simp only [if_neg hh]
          exact ih (rowRel_set h (mi + 1) (mRel_setCell (h.2 (mi + 1)) 0
            ⟨Kind.tie, some fret⟩)) (mi + 1) 0
    · simp only [if_neg hb]
      exact ih (rowRel_set h mi (mRel_setCell (h.2 mi) (step + 1) ⟨Kind.hold, none⟩)) mi (step + 1)

theorem rowRel_place_note {s : Nat} {d1 d2 : List Measure} (h : rowRel s d1 d2)
    (mi t fret dur : Nat) :
    rowRel s (place_note d1 mi s t fret dur) (place_note d2 mi s t fret dur) := by
  simp only [place_note]
  rw [mRel_getCell (h.2 mi)]
  by_cases hc1 : ((d2.getD mi default).getCell s t).kind = Kind.hold
  · simp only [if_pos hc1]
    have h1 := rowRel_set h mi (mRel_shorten_from_hold (h.2 mi) t)
    rw [mRel_getCell (h1.2 mi)]
    by_cases hc2 : (((d2.set mi ((d2.getD mi default).shorten_from_hold s t)).getD mi
        default).getCell s t).isHead
    · simp only [if_pos hc2]
      have h2 := rowRel_set h1 mi (mRel_delete_head_and_holds (h1.2 mi) t)
      exact rowRel_place_note_loop fret (dur - 1)
        (rowRel_set h2 mi (mRel_setCell (h2.2 mi) t ⟨Kind.note, some fret⟩)) mi t
    · simp only [if_neg hc2]
      exact rowRel_place_note_loop fret (dur - 1)
        (rowRel_set h1 mi (mRel_setCell (h1.2 mi) t ⟨Kind.note, some fret⟩)) mi t
  · simp only [if_neg hc1]
    rw [mRel_getCell (h.2 mi)]
    by_cases hc2 : ((d2.getD mi default).getCell s t).isHead
    · simp only [if_pos hc2]
      have h2 := rowRel_set h mi (mRel_delete_head_and_holds (h.2 mi) t)
      exact rowRel_place_note_loop fret (dur - 1)
        (rowRel_set h2 mi (mRel_setCell (h2.2 mi) t ⟨Kind.note, some fret⟩)) mi t
    · simp only [if_neg hc2]
      exact rowRel_place_note_loop fret (dur - 1)
        (rowRel_set h mi (mRel_setCell (h.2 mi) t ⟨Kind.note, some fret⟩)) mi t

theorem rowRel_tieChainStepsAux {s : Nat} {d1 d2 : List Measure} (h : rowRel s d1 d2)
    (fret : Option Nat) :
    ∀ fuel nmi, tieChainStepsAux d1 s fret fuel nmi = tieChainStepsAux d2 s fret fuel nmi := by
  intro fuel
  induction fuel with
  | zero => intro nmi; rfl
  | succ f ih =>
    intro nmi
    simp only [tieChainStepsAux]
    rw [h.1, mRel_getCell (h.2 nmi), mRel_countHolds (h.2 nmi), ih]

theorem rowRel_calc_note_total_steps {s : Nat} {d1 d2 : List Measure} (h : rowRel s d1 d2)
    (mi st : Nat) : calc_note_total_steps d1 mi s st = calc_note_total_steps d2 mi s st := by
  simp only [calc_note_total_steps, tieChainSteps]
  rw [mRel_getCell (h.2 mi), mRel_countHolds (h.2 mi), h.1,
    rowRel_tieChainStepsAux h _ _ _]

/-! ## C1 -/

/-- C1: starting from a document whose only measure has 16 steps and an
entirely empty string 0, `place_note` at string 0, step 0 with fret 3 and
duration 18 appends exactly one new 16-step measure, writes `Tie(fret=3)`
at its step 0, fills holds so the cells consumed after the head (15 holds
in the first measure, the tie head, and 1 hold after it) total 17 = 18-1,
and `_calc_note_total_steps` at the original head returns 18. -/
theorem C1_place_note_crosses_measure (m : Measure)
    (hsteps : m.steps_per_bar = 16)
    (hrow : m.grid.getD 0 [] = List.replicate 16 Cell.mkEmpty) :
    (place_note [m] 0 0 0 3 18).length = 2 ∧
    ((place_note [m] 0 0 0 3 18).getD 1 default).steps_per_bar = 16 ∧
    ((place_note [m] 0 0 0 3 18).getD 1 default).getCell 0 0 = ⟨Kind.tie, some 3⟩ ∧
    ((place_note [m] 0 0 0 3 18).getD 0 default).getCell 0 0 = ⟨Kind.note, some 3⟩ ∧
    ((place_note [m] 0 0 0 3 18).getD 0 default).countHolds 0 1 +
      (1 + ((place_note [m] 0 0 0 3 18).getD 1 default).countHolds 0 1) = 17 ∧
    calc_note_total_steps (place_note [m] 0 0 0 3 18) 0 0 0 = 18 := by
  have hrel : rowRel 0 [m] freshDoc := by
    refine ⟨rfl, ?_⟩
    intro i
    match i with
    | 0 => exact ⟨hsteps, hrow.trans rfl⟩
    | i + 1 =>
      have h1 : ([m].getD (i + 1) default) = default := getD_of_le (by simp)
      have h2 : (freshDoc.getD (i + 1) default) = default := getD_of_le (by simp [freshDoc])
      rw [h1, h2]
      exact ⟨rfl, rfl⟩
  have hres := rowRel_place_note hrel 0 0 3 18
  refine ⟨?_, ?_, ?_, ?_, ?_, ?_⟩
  · rw [hres.1]; decide
  · rw [(hres.2 1).1]; decide
  · rw [mRel_getCell (hres.2 1) 0]; decide
  · rw [mRel_getCell (hres.2 0) 0]; decide
  · rw [mRel_countHolds (hres.2 0) 1, mRel_countHolds (hres.2 1) 1]; decide
  · rw [rowRel_calc_note_total_steps hres 0 0]; decide

/-- Witness for C1 at the fresh document's measure. -/
theorem C1_witness :
    (place_note [Measure.new 16] 0 0 0 3 18).length = 2 ∧
    ((place_note [Measure.new 16] 0 0 0 3 18).getD 1 default).steps_per_bar = 16 ∧
    ((place_note [Measure.new 16] 0 0 0 3 18).getD 1 default).getCell 0 0 =
      ⟨Kind.tie, some 3⟩ ∧
    ((place_note [Measure.new 16] 0 0 0 3 18).getD 0 default).getCell 0 0 =
      ⟨Kind.note, some 3⟩ ∧
    ((place_note [Measure.new 16] 0 0 0 3 18).getD 0 default).countHolds 0 1 +
      (1 + ((place_note [Measure.new 16] 0 0 0 3 18).getD 1 default).countHolds 0 1) = 17 ∧
    calc_note_total_steps (place_note [Measure.new 16] 0 0 0 3 18) 0 0 0 = 18 :=
  C1_place_note_crosses_measure (Measure.new 16) rfl rfl

/-! ## C5: the notation duration splitter. -/

theorem CAND_min : ∀ c ∈ CAND, 3 ≤ c.1 := by decide

theorem CAND_sorted : CAND.Pairwise (fun a b => b.1 ≤ a.1) := by decide

theorem find_cand_mem {d : Nat} {c : Nat × String × Nat} (h : find_cand d = some c) :
    c ∈ CAND ∧ c.1 ≤ d := by
  refine ⟨List.mem_of_find?_eq_some h, ?_⟩
  have hp := List.find?_some h
  simpa using hp

theorem find?_desc_largest {l : List (Nat × String × Nat)} {d : Nat} {c : Nat × String × Nat}
    (hsort : l.Pairwise (fun a b => b.1 ≤ a.1))
    (hf : l.find? (fun x => x.1 ≤ d) = some c) :
    ∀ c2 ∈ l, c2.1 ≤ d → c2.1 ≤ c.1 := by
  induction l with
  | nil => simp at hf
  | cons a l ih =>
    rw [List.find?_cons] at hf
    split at hf
    · cases hf
      intro c2 hc2 hle
      rcases List.mem_cons.mp hc2 with rfl | hc2
      · exact le_refl _
      · exact (List.pairwise_cons.mp hsort).1 c2 hc2
    · intro c2 hc2 hle
      rcases List.mem_cons.mp hc2 with rfl | hc2
      · next hpa => exact absurd hle (by simpa using hpa)
      · exact ih (List.pairwise_cons.mp hsort).2 hf c2 hc2 hle

theorem split_duration_divAux_congr :
    ∀ f1 f2 d, d ≤ f1 → d ≤ f2 → split_duration_divAux f1 d = split_duration_divAux f2 d := by
  intro f1
  induction f1 with
  | zero =>
    intro f2 d h1 h2
    have hd : d = 0 := by omega
    subst hd
    cases f2 with
    | zero => rfl
    | succ f => simp [split_duration_divAux]
  | succ f1 ih =>
    intro f2 d h1 h2
    cases f2 with
    | zero =>
      have hd : d = 0 := by omega
      subst hd
      simp [split_duration_divAux]
    | succ f2 =>
      simp only [split_duration_divAux]
      by_cases hd : d = 0
      · simp [hd]
      · simp only [if_neg hd]
        rcases hfc : find_cand d with _ | c
        · rfl
        · have hm := find_cand_mem hfc
          have h3 := CAND_min c hm.1
          dsimp only
          rw [ih f2 (d - c.1) (by omega) (by omega)]

theorem split_duration_div_unfold (d : Nat) :
    split_duration_div d = if d = 0 then [] else
      match find_cand d with
      | some c => (c.1, some c.2.1, c.2.2) :: split_duration_div (d - c.1)
      | none => [(d, none, 0)] := by
  unfold split_duration_div
  cases d with
  | zero => simp [split_duration_divAux]
  | succ n =>
    simp only [split_duration_divAux, if_neg (Nat.succ_ne_zero n)]
    rcases hfc : find_cand (n + 1) with _ | c
    · rfl
    · have hm := find_cand_mem hfc
      have h3 := CAND_min c hm.1
      dsimp only
      rw [split_duration_divAux_congr n (n + 1 - c.1) (n + 1 - c.1) (by omega) (le_refl _)]

theorem split_duration_div_sum : ∀ d, ((split_duration_div d).map (fun x => x.1)).sum = d := by
  intro d
  induction d using Nat.strong_induction_on with
  | _ d ih =>
    rw [split_duration_div_unfold]
    by_cases hd : d = 0
    · simp [hd]
    · simp only [if_neg hd]
      rcases hfc : find_cand d with _ | c
      · simp
      · have hm := find_cand_mem hfc
        have h3 := CAND_min c hm.1
        simp only [List.map_cons, List.sum_cons]
        rw [ih (d - c.1) (by omega)]
        omega

/-- C5: the duration splitter is greedy over the fixed candidate table,
repeatedly subtracting the largest candidate not exceeding the remainder,
emitting a final 1- or 2-division remainder as one untyped fragment; 50
splits as whole + untyped 2 and 48 as a lone whole fragment; in
`emit_note`'s fragment list, every fragment after the first carries a
tie-stop and every fragment before the last a tie-start. -/
theorem C5_split_duration_greedy :
    split_duration_div 50 = [(48, some "whole", 0), (2, none, 0)] ∧
    split_duration_div 48 = [(48, some "whole", 0)] ∧
    (∀ d, 0 < d → d < 3 → split_duration_div d = [(d, none, 0)]) ∧
    (∀ d c, find_cand d = some c →
      (∀ c2 ∈ CAND, c2.1 ≤ d → c2.1 ≤ c.1) ∧
      split_duration_div d = (c.1, some c.2.1, c.2.2) :: split_duration_div (d - c.1)) ∧
    (∀ d, ((split_duration_div d).map (fun x => x.1)).sum = d) ∧
    (∀ pm dd v ts te tech sn fr ic i
      (h : i < (emit_note pm dd v ts te tech sn fr ic).length),
      (0 < i → ((emit_note pm dd v ts te tech sn fr ic).get ⟨i, h⟩).tie_stop = true) ∧
      (i + 1 < (emit_note pm dd v ts te tech sn fr ic).length →
        ((emit_note pm dd v ts te tech sn fr ic).get ⟨i, h⟩).tie_start = true)) := by
  refine ⟨by decide, by decide, ?_, ?_, split_duration_div_sum, ?_⟩
  · intro d h0 h3
    rw [split_duration_div_unfold, if_neg (by omega)]
    have hnone : find_cand d = none := by
      apply List.find?_eq_none.mpr
      intro c hc
      have := CAND_min c hc
      simp only [decide_eq_true_eq]
      omega
    rw [hnone]
  · intro d c hfc
    have hm := find_cand_mem hfc
    have h3 := CAND_min c hm.1
    refine ⟨find?_desc_largest CAND_sorted hfc, ?_⟩
    rw [split_duration_div_unfold, if_neg (by omega), hfc]
  · intro pm dd v ts te tech sn fr ic i h
    have hlen : (emit_note pm dd v ts te tech sn fr ic).length =
        (split_duration_div dd).length := by
      simp [emit_note]
    have hi : i < (split_duration_div dd).length := hlen ▸ h
    constructor
    · intro hpos
      rw [show (emit_note pm dd v ts te tech sn fr ic).get ⟨i, h⟩ =
          (emit_note pm dd v ts te tech sn fr ic).get ⟨i, h⟩ from rfl]
      unfold emit_note
      rw [List.get_mapIdx _ _ i hi]
      simp [hpos]
    · intro hlast
      unfold emit_note
      rw [List.get_mapIdx _ _ i hi]
      have : i < (split_duration_div dd).length - 1 := by omega
      simp [this]

/-- Witness for C5's conditional parts at concrete inputs. -/
theorem C5_witness :
    split_duration_div 2 = [(2, none, 0)] ∧
    split_duration_div 50 = (48, some "whole", 0) :: split_duration_div 2 ∧
    ((emit_note 64 50 1 false false false 1 0 false).get ⟨1, by decide⟩).tie_stop = true ∧
    ((emit_note 64 50 1 false false false 1 0 false).get ⟨0, by decide⟩).tie_start = true :=
  ⟨C5_split_duration_greedy.2.2.1 2 (by decide) (by decide),
   (C5_split_duration_greedy.2.2.2.1 50 (48, "whole", 0) (by decide)).2,
   (C5_split_duration_greedy.2.2.2.2.2 64 50 1 false false false 1 0 false 1
     (by decide)).1 (by decide),
   (C5_split_duration_greedy.2.2.2.2.2 64 50 1 false false false 1 0 false 0
     (by decide)).2 (by decide)⟩

/-! ## C9: undo burst coalescing. -/

/-- C9: a burst push is skipped (stack unchanged, only the debounce
timestamp reset to `now`) iff the stack is non-empty, the last push used
the same tag, and the elapsed time is within `UNDO_BURST_SEC`; and three
same-tag burst pushes within the window followed by a non-burst push
leave exactly the stack `[first snapshot, last snapshot]` — 2 entries.
(The iff is stated below the `UNDO_LIMIT`, where an actual push always
changes the stack.) -/
theorem C9_push_undo_burst :
    (∀ (st : UndoState) (snap : Nat) (tag : String) (now : ℚ),
      st.undoing = false → st.undo_stack.length < UNDO_LIMIT →
      (((push_undo st snap tag true now).undo_stack = st.undo_stack) ↔
        (st.undo_stack ≠ [] ∧ st.undo_last_tag = some tag ∧
          now - st.undo_last_time ≤ UNDO_BURST_SEC))) ∧
    (∀ (st : UndoState) (snap : Nat) (tag : String) (now : ℚ),
      st.undoing = false →
      st.undo_stack ≠ [] → st.undo_last_tag = some tag →
      now - st.undo_last_time ≤ UNDO_BURST_SEC →
      push_undo st snap tag true now = { st with undo_last_time := now }) ∧
    (∀ (t1 t2 t3 t4 : ℚ) (s1 s2 s3 s4 : Nat) (tag tag2 : String),
      t2 - t1 ≤ UNDO_BURST_SEC → t3 - t2 ≤ UNDO_BURST_SEC →
      (push_undo (push_undo (push_undo (push_undo ⟨[], 0, none, false⟩ s1 tag true t1)
          s2 tag true t2) s3 tag true t3) s4 tag2 false t4).undo_stack = [s1, s4]) := by
  have hskip : ∀ (st : UndoState) (snap : Nat) (tag : String) (now : ℚ),
      st.undoing = false →
      st.undo_stack ≠ [] → st.undo_last_tag = some tag →
      now - st.undo_last_time ≤ UNDO_BURST_SEC →
      push_undo st snap tag true now = { st with undo_last_time := now } := by
    intro st snap tag now hu h1 h2 h3
    unfold push_undo
    rw [hu]
    simp only [Bool.false_eq_true, if_false]
    rw [if_pos ⟨by trivial, h1, h2, h3⟩]
  have hpush : ∀ (st : UndoState) (snap : Nat) (tag : String) (now : ℚ),
      st.undoing = false → st.undo_stack.length < UNDO_LIMIT →
      ¬(st.undo_stack ≠ [] ∧ st.undo_last_tag = some tag ∧
        now - st.undo_last_time ≤ UNDO_BURST_SEC) →
      (push_undo st snap tag true now).undo_stack = st.undo_stack ++ [snap] := by
    intro st snap tag now hu hlen hc
    unfold push_undo
    rw [hu]
    simp only [Bool.false_eq_true, if_false]
    rw [if_neg (fun hh => hc hh.2)]
    have hlen2 : ¬(UNDO_LIMIT < (st.undo_stack ++ [snap]).length) := by
      simp only [List.length_append, List.length_cons, List.length_nil]
      omega
    simp only [if_neg hlen2]
  refine ⟨?_, hskip, ?_⟩
  · intro st snap tag now hu hlen
    by_cases hc : st.undo_stack ≠ [] ∧ st.undo_last_tag = some tag ∧
        now - st.undo_last_time ≤ UNDO_BURST_SEC
    · rw [hskip st snap tag now hu hc.1 hc.2.1 hc.2.2]
      simpa using hc
    · rw [hpush st snap tag now hu hlen hc]
      constructor
      · intro habs
        have : (st.undo_stack ++ [snap]).length = st.undo_stack.length := by rw [habs]
        simp at this
      · intro habs
        exact absurd habs hc
  · intro t1 t2 t3 t4 s1 s2 s3 s4 tag tag2 h12 h23
    have e1 : push_undo ⟨[], 0, none, false⟩ s1 tag true t1 =
        ⟨[s1], t1, some tag, false⟩ := by
      unfold push_undo
      simp [UNDO_LIMIT]
    rw [e1]
    have e2 : push_undo ⟨[s1], t1, some tag, false⟩ s2 tag true t2 =
        ⟨[s1], t2, some tag, false⟩ := by
      exact hskip _ s2 tag t2 rfl (by simp) rfl h12
    rw [e2]
    have e3 : push_undo ⟨[s1], t2, some tag, false⟩ s3 tag true t3 =
        ⟨[s1], t3, some tag, false⟩ := by
      exact hskip _ s3 tag t3 rfl (by simp) rfl h23
    rw [e3]
    unfold push_undo
    simp [UNDO_LIMIT]

/-- Witness for C9 at concrete timestamps. -/
theorem C9_witness :
    (((push_undo ⟨[7], 0, some "edit", false⟩ 8 "edit" true (1/2)).undo_stack =
        [7]) ↔ ([7] ≠ ([] : List Nat) ∧ some "edit" = some "edit" ∧
          (1/2 : ℚ) - 0 ≤ UNDO_BURST_SEC)) ∧
    push_undo ⟨[7], 0, some "edit", false⟩ 8 "edit" true (1/2) =
      ⟨[7], 1/2, some "edit", false⟩ ∧
    (push_undo (push_undo (push_undo (push_undo ⟨[], 0, none, false⟩ 1 "edit" true 0)
        2 "edit" true (1/4)) 3 "edit" true (1/2)) 4 "range" false 10).undo_stack = [1, 4] :=
  ⟨C9_push_undo_burst.1 ⟨[7], 0, some "edit", false⟩ 8 "edit" (1/2) rfl (by decide),
   C9_push_undo_burst.2.1 ⟨[7], 0, some "edit", false⟩ 8 "edit" (1/2) rfl (by simp) rfl
     (by norm_num [UNDO_BURST_SEC]),
   C9_push_undo_burst.2.2 0 (1/4) (1/2) 10 1 2 3 4 "edit" "range"
     (by norm_num [UNDO_BURST_SEC]) (by norm_num [UNDO_BURST_SEC])⟩

/-! ## C10: the exporters never read the transpose setting. -/

/-- C10: two states identical except for the transpose setting produce
identical MIDI event lists and identical MusicXML note/forward output
(both exporters compute pitch as open-string MIDI plus fret and never
read `transpose`), even though `model_to_dict` does store the transpose
value in the saved metadata. -/
theorem C10_transpose_not_read (st : AppState) (tr : String) :
    export_midi_events { st with transpose := tr } = export_midi_events st ∧
    export_musicxml_items { st with transpose := tr } = export_musicxml_items st ∧
    (model_to_dict { st with transpose := tr }).meta.transpose = tr.trim ∧
    (model_to_dict st).meta.transpose = st.transpose.trim :=
  ⟨rfl, rfl, rfl, rfl⟩

/-! ## C2: what `place_note` deletes when its target (or a crossing
destination) already holds a head. -/

theorem steps_eraseHoldsFromAux (s : Nat) :
    ∀ fuel (m : Measure) tt,
      (Measure.eraseHoldsFromAux s fuel m tt).steps_per_bar = m.steps_per_bar := by
  intro fuel
  induction fuel with
  | zero => intro m tt; rfl
  | succ f ih =>
    intro m tt
    unfold Measure.eraseHoldsFromAux
    by_cases hc : tt < m.steps_per_bar ∧ (m.getCell s tt).kind = Kind.hold
    · rw [if_pos hc, ih]
      rfl
    · rw [if_neg hc]

theorem steps_eraseHoldsFrom (m : Measure) (s tt : Nat) :
    (m.eraseHoldsFrom s tt).steps_per_bar = m.steps_per_bar :=
  steps_eraseHoldsFromAux s _ m tt

theorem steps_delete_head_and_holds (m : Measure) (s t : Nat) :
    (m.delete_head_and_holds s t).steps_per_bar = m.steps_per_bar :=
  steps_eraseHoldsFrom _ s (t + 1)

theorem steps_shorten_from_hold (m : Measure) (s t : Nat) :
    (m.shorten_from_hold s t).steps_per_bar = m.steps_per_bar :=
  steps_eraseHoldsFrom m s t

theorem getD_set_other {l : List Measure} {i j : Nat} (hj : j ≠ i) (m : Measure) :
    (l.set i m).getD j default = l.getD j default :=
  getD_set_of_ne (Ne.symm hj)

theorem steps_getD_set (measures : List Measure) (mi : Nat) (m : Measure)
    (hm : m.steps_per_bar = (measures.getD mi default).steps_per_bar) :
    ((measures.set mi m).getD mi default).steps_per_bar =
      (measures.getD mi default).steps_per_bar := by
  by_cases hl : mi < measures.length
  · rw [getD_set_self hl, hm]
  · rw [List.set_eq_of_length_le (by omega)]

theorem steps_getD_set_setCell (l : List Measure) (mi s t : Nat) (c : Cell) :
    ((l.set mi ((l.getD mi default).setCell s t c)).getD mi default).steps_per_bar =
      (l.getD mi default).steps_per_bar :=
  steps_getD_set l mi ((l.getD mi default).setCell s t c) rfl

theorem steps_getD_set_delete (l : List Measure) (mi s t : Nat) :
    ((l.set mi ((l.getD mi default).delete_head_and_holds s t)).getD mi
      default).steps_per_bar = (l.getD mi default).steps_per_bar :=
  steps_getD_set l mi _ (steps_delete_head_and_holds _ s t)

theorem steps_getD_set_shorten (l : List Measure) (mi s t : Nat) :
    ((l.set mi ((l.getD mi default).shorten_from_hold s t)).getD mi
      default).steps_per_bar = (l.getD mi default).steps_per_bar :=
  steps_getD_set l mi _ (steps_shorten_from_hold _ s t)

theorem place_note_loop_local (s fret : Nat) :
    ∀ rem (measures : List Measure) (mi step : Nat),
      step + rem < (measures.getD mi default).steps_per_bar →
      (place_note_loop measures s fret mi step rem).length = measures.length ∧
      ∀ j, j ≠ mi → (place_note_loop measures s fret mi step rem).getD j default =
        measures.getD j default := by
  intro rem
  induction rem with
  | zero => intro measures mi step h; exact ⟨rfl, fun j _ => rfl⟩
  | succ r ih =>
    intro measures mi step h
    simp only [place_note_loop]
    rw [if_neg (by omega)]
    have hspb : ((measures.set mi ((measures.getD mi default).setCell s (step + 1)
        ⟨Kind.hold, none⟩)).getD mi default).steps_per_bar =
        (measures.getD mi default).steps_per_bar :=
      steps_getD_set measures mi _ rfl
    obtain ⟨hlen, hother⟩ := ih (measures.set mi ((measures.getD mi default).setCell s
      (step + 1) ⟨Kind.hold, none⟩)) mi (step + 1) (by rw [hspb]; omega)
    refine ⟨by rw [hlen]; simp, fun j hj => ?_⟩
    rw [hother j hj, getD_set_other hj]

/-- C2 (amended): when `place_note` targets a cell holding a head, it
deletes only that head and its forward hold run within the same measure
and then writes the new `Note`; no tie-continuation head of a later
measure is touched. Concretely (conjunct 1) a duration-1 replacement is
exactly `_delete_head_and_holds` followed by the head write; (conjunct 2)
whenever the new duration fits inside the current measure, every other
measure — including any same-fret step-0 tie behind the old head — is
left unchanged; and (conjunct 3, the crossing destination) placing across
a bar line onto a destination head deletes only that head's measure-local
run: `crossDestDoc`'s measure-2 tie survives while measure 1's head is
replaced by the new tie. -/
theorem C2_place_note_no_chain_delete :
    (∀ (measures : List Measure) (mi s t f : Nat),
      ((measures.getD mi default).getCell s t).isHead →
      place_note measures mi s t f 1 =
        measures.set mi (((measures.getD mi default).delete_head_and_holds s t).setCell s t
          ⟨Kind.note, some f⟩)) ∧
    (∀ (measures : List Measure) (mi s t f dur : Nat),
      t + dur ≤ (measures.getD mi default).steps_per_bar →
      (place_note measures mi s t f dur).length = measures.length ∧
      ∀ j, j ≠ mi → (place_note measures mi s t f dur).getD j default =
        measures.getD j default) ∧
    (((place_note crossDestDoc 0 0 2 5 3).getD 2 default).getCell 0 0 =
      ⟨Kind.tie, some 7⟩ ∧
     ((place_note crossDestDoc 0 0 2 5 3).getD 1 default).getCell 0 0 =
      ⟨Kind.tie, some 5⟩ ∧
     (place_note crossDestDoc 0 0 2 5 3).length = 3) := by
  have hhold : ∀ (measures : List Measure) (mi s t : Nat),
      ((measures.getD mi default).getCell s t).isHead →
      ¬((measures.getD mi default).getCell s t).kind = Kind.hold := by
    intro measures mi s t hh
    rcases hh with h | h <;> rw [h] <;> intro hc <;> cases hc
  refine ⟨?_, ?_, by decide, by decide, by decide⟩
  · intro measures mi s t f hh
    simp only [place_note]
    rw [if_neg (hhold measures mi s t hh), if_pos hh]
    simp only [Nat.sub_self, place_note_loop]
    by_cases hl : mi < measures.length
    · rw [getD_set_self hl, List.set_set]
    · have hle1 : measures.length ≤ mi := by omega
      rw [List.set_eq_of_length_le hle1, List.set_eq_of_length_le hle1,
        List.set_eq_of_length_le hle1]
  · intro measures mi s t f dur hfit
    simp only [place_note]
    rcases dur with _ | d
    · simp only [Nat.zero_sub, place_note_loop]
      split_ifs with hc1 hc2 hc3
      · refine ⟨by simp, fun j hj => ?_⟩
        rw [getD_set_other hj, getD_set_other hj, getD_set_other hj]
      · refine ⟨by simp, fun j hj => ?_⟩
        rw [getD_set_other hj, getD_set_other hj]
      · refine ⟨by simp, fun j hj => ?_⟩
        rw [getD_set_other hj, getD_set_other hj]
      · refine ⟨by simp, fun j hj => ?_⟩
        rw [getD_set_other hj]
    · simp only [Nat.succ_sub_one]
      split_ifs with hc1 hc2 hc3
      · have espb : ((((measures.set mi ((measures.getD mi default).shorten_from_hold s t)).set
            mi (((measures.set mi ((measures.getD mi default).shorten_from_hold s t)).getD mi
              default).delete_head_and_holds s t)).set mi
            ((((measures.set mi ((measures.getD mi default).shorten_from_hold s t)).set mi
              (((measures.set mi ((measures.getD mi default).shorten_from_hold s t)).getD mi
                default).delete_head_and_holds s t)).getD mi default).setCell s t
              ⟨Kind.note, some f⟩)).getD mi default).steps_per_bar =
            (measures.getD mi default).steps_per_bar := by
          rw [steps_getD_set_setCell, steps_getD_set_delete, steps_getD_set_shorten]
        obtain ⟨hl, hg⟩ := place_note_loop_local s f d _ mi t (by rw [espb]; omega)
        refine ⟨hl.trans (by simp), fun j hj => (hg j hj).trans ?_⟩
        rw [getD_set_other hj, getD_set_other hj, getD_set_other hj]
      · have espb : (((measures.set mi ((measures.getD mi default).shorten_from_hold s t)).set
            mi (((measures.set mi ((measures.getD mi default).shorten_from_hold s t)).getD mi
              default).setCell s t ⟨Kind.note, some f⟩)).getD mi default).steps_per_bar =
            (measures.getD mi default).steps_per_bar := by
          rw [steps_getD_set_setCell, steps_getD_set_shorten]
        obtain ⟨hl, hg⟩ := place_note_loop_local s f d _ mi t (by rw [espb]; omega)
        refine ⟨hl.trans (by simp), fun j hj => (hg j hj).trans ?_⟩
        rw [getD_set_other hj, getD_set_other hj]
      · have espb : (((measures.set mi ((measures.getD mi default).delete_head_and_holds s
            t)).set mi (((measures.set mi ((measures.getD mi default).delete_head_and_holds s
              t)).getD mi default).setCell s t ⟨Kind.note, some f⟩)).getD mi
            default).steps_per_bar = (measures.getD mi default).steps_per_bar := by
          rw [steps_getD_set_setCell, steps_getD_set_delete]
        obtain ⟨hl, hg⟩ := place_note_loop_local s f d _ mi t (by rw [espb]; omega)
        refine ⟨hl.trans (by simp), fun j hj => (hg j hj).trans ?_⟩
        rw [getD_set_other hj, getD_set_other hj]
      · have espb : ((measures.set mi ((measures.getD mi default).setCell s t
            ⟨Kind.note, some f⟩)).getD mi default).steps_per_bar =
            (measures.getD mi default).steps_per_bar := steps_getD_set_setCell measures mi s t _
        obtain ⟨hl, hg⟩ := place_note_loop_local s f d _ mi t (by rw [espb]; omega)
        refine ⟨hl.trans (by simp), fun j hj => (hg j hj).trans ?_⟩
        rw [getD_set_other hj]

/-- C2 counterexample: on `tieChainDoc` (a fret-3 note with holds in
measure 0 tied into measure 1), placing a duration-1 fret-5 note onto the
head leaves the step-0 `Tie(3)` of measure 1 in place — the claimed
chain-delete of forward tie-continuation heads does not happen. -/
theorem C2_counterexample :
    (tieChainDoc.getD 1 default).getCell 0 0 = ⟨Kind.tie, some 3⟩ ∧
    (tieChainDoc.getD 0 default).getCell 0 0 = ⟨Kind.note, some 3⟩ ∧
    ((place_note tieChainDoc 0 0 0 5 1).getD 0 default).getCell 0 0 =
      ⟨Kind.note, some 5⟩ ∧
    ((place_note tieChainDoc 0 0 0 5 1).getD 1 default).getCell 0 0 =
      ⟨Kind.tie, some 3⟩ ∧
    ((place_note tieChainDoc 0 0 0 5 1).getD 1 default).getCell 0 0 ≠ Cell.mkEmpty := by
  refine ⟨by decide, by decide, by decide, by decide, by decide⟩

/-- Witness for C2's amended theorem at a concrete head-replacement. -/
theorem C2_witness :
    place_note tieChainDoc 0 0 0 5 1 =
      tieChainDoc.set 0 (((tieChainDoc.getD 0 default).delete_head_and_holds 0 0).setCell 0 0
        ⟨Kind.note, some 5⟩) ∧
    (place_note tieChainDoc 0 0 0 5 1).length = tieChainDoc.length ∧
    (place_note tieChainDoc 0 0 0 5 1).getD 1 default = tieChainDoc.getD 1 default :=
  ⟨C2_place_note_no_chain_delete.1 tieChainDoc 0 0 0 5 (by decide),
   (C2_place_note_no_chain_delete.2.1 tieChainDoc 0 0 0 5 1 (by decide)).1,
   (C2_place_note_no_chain_delete.2.1 tieChainDoc 0 0 0 5 1 (by decide)).2 1 (by decide)⟩

/-! ## C7: tie-back adjacency. -/

/-- C7: on a `Note(f)` cell, `tie_back` is a no-op (grid unchanged) when
no prior same-fret head exists or when that head's computed end position
is not exactly the cursor cell; when the end position is exactly the
cursor cell, only that cell is converted to `Tie(f)`; on a `Tie(f)` cell
it toggles back to `Note(f)`. -/
theorem C7_tie_back_adjacency (measures : List Measure) (mi s t : Nat) :
    (∀ f, (measures.getD mi default).getCell s t = ⟨Kind.note, some f⟩ →
      (prev_head_of measures mi s t f = none → tie_back measures mi s t = measures) ∧
      (∀ ph, prev_head_of measures mi s t f = some ph →
        note_end_pos measures ph.1 s ph.2 ≠ some (mi, t) →
        tie_back measures mi s t = measures) ∧
      (∀ ph, prev_head_of measures mi s t f = some ph →
        note_end_pos measures ph.1 s ph.2 = some (mi, t) →
        tie_back measures mi s t =
          measures.set mi ((measures.getD mi default).setCell s t ⟨Kind.tie, some f⟩))) ∧
    (∀ f, (measures.getD mi default).getCell s t = ⟨Kind.tie, some f⟩ →
      tie_back measures mi s t =
        measures.set mi ((measures.getD mi default).setCell s t ⟨Kind.note, some f⟩)) := by
  constructor
  · intro f hc
    refine ⟨?_, ?_, ?_⟩
    · intro hnone
      simp only [tie_back, hc, hnone]
    · intro ph hph hne
      simp only [tie_back, hc, hph]
      rw [if_neg hne]
    · intro ph hph heq
      simp only [tie_back, hc, hph]
      rw [if_pos heq]
  · intro f hc
    simp only [tie_back, hc]

/-- Witness for C7: the refused gap case, the accepted adjacent case, a
no-prior-head case, and the tie toggle, all at concrete documents. -/
theorem C7_witness :
    tie_back tieGapDoc 0 0 4 = tieGapDoc ∧
    tie_back tieAdjDoc 0 0 4 =
      tieAdjDoc.set 0 ((tieAdjDoc.getD 0 default).setCell 0 4 ⟨Kind.tie, some 3⟩) ∧
    tie_back [(Measure.new 16).setCell 0 0 ⟨Kind.note, some 3⟩] 0 0 0 =
      [(Measure.new 16).setCell 0 0 ⟨Kind.note, some 3⟩] ∧
    tie_back [(Measure.new 16).setCell 0 0 ⟨Kind.tie, some 5⟩] 0 0 0 =
      [(Measure.new 16).setCell 0 0 ⟨Kind.tie, some 5⟩].set 0
        (([(Measure.new 16).setCell 0 0 ⟨Kind.tie, some 5⟩].getD 0 default).setCell 0 0
          ⟨Kind.note, some 5⟩) :=
  ⟨((C7_tie_back_adjacency tieGapDoc 0 0 4).1 3 (by decide)).2.1 (0, 0) (by decide)
    (by decide),
   ((C7_tie_back_adjacency tieAdjDoc 0 0 4).1 3 (by decide)).2.2 (0, 0) (by decide)
    (by decide),
   ((C7_tie_back_adjacency [(Measure.new 16).setCell 0 0 ⟨Kind.note, some 3⟩] 0 0 0).1 3
    (by decide)).1 (by decide),
   (C7_tie_back_adjacency [(Measure.new 16).setCell 0 0 ⟨Kind.tie, some 5⟩] 0 0 0).2 5
    (by decide)⟩

/-! ## C4: characterizing `delete_at_cursor`. -/

theorem countHoldsAux_congr (m : Measure) (s : Nat) :
    ∀ f1 f2 t, m.steps_per_bar - t ≤ f1 → m.steps_per_bar - t ≤ f2 →
      m.countHoldsAux s f1 t = m.countHoldsAux s f2 t := by
  intro f1
  induction f1 with
  | zero =>
    intro f2 t h1 h2
    cases f2 with
    | zero => rfl
    | succ f =>
      simp only [Measure.countHoldsAux]
      rw [if_neg (fun hh => by omega)]
  | succ f1 ih =>
    intro f2 t h1 h2
    cases f2 with
    | zero =>
      simp only [Measure.countHoldsAux]
      rw [if_neg (fun hh => by omega)]
    | succ f2 =>
      simp only [Measure.countHoldsAux]
      by_cases hg : t < m.steps_per_bar ∧ (m.getCell s t).kind = Kind.hold
      · rw [if_pos hg, if_pos hg, ih f2 (t + 1) (by omega) (by omega)]
      · rw [if_neg hg, if_neg hg]

theorem countHolds_unfold (m : Measure) (s t : Nat) :
    m.countHolds s t = if t < m.steps_per_bar ∧ (m.getCell s t).kind = Kind.hold then
      m.countHolds s (t + 1) + 1 else 0 := by
  unfold Measure.countHolds
  rcases hf : m.steps_per_bar - t with _ | k
  · simp only [Measure.countHoldsAux]
    rw [if_neg (fun hh => by omega)]
  · simp only [Measure.countHoldsAux]
    by_cases hg : t < m.steps_per_bar ∧ (m.getCell s t).kind = Kind.hold
    · rw [if_pos hg, if_pos hg]
      congr 1
      exact countHoldsAux_congr m s k (m.steps_per_bar - (t + 1)) (t + 1) (by omega) (by omega)
    · rw [if_neg hg, if_neg hg]

theorem countHolds_congr_cells {s : Nat} {m1 m2 : Measure}
    (hspb : m1.steps_per_bar = m2.steps_per_bar) :
    ∀ fuel t, (∀ u, t ≤ u → m1.getCell s u = m2.getCell s u) →
      m1.countHoldsAux s fuel t = m2.countHoldsAux s fuel t := by
  intro fuel
  induction fuel with
  | zero => intro t h; rfl
  | succ f ih =>
    intro t h
    simp only [Measure.countHoldsAux]
    rw [hspb, h t (le_refl t), ih (t + 1) (fun u hu => h u (by omega))]

theorem countHolds_setCell_above (m : Measure) (s t u : Nat) (c : Cell) (h : u < t) :
    (m.setCell s u c).countHolds s t = m.countHolds s t := by
  unfold Measure.countHolds
  rw [steps_setCell]
  exact countHolds_congr_cells (steps_setCell m s u c) _ t
    (fun v hv => getCell_setCell_ne_col m s c (by omega))

theorem in_range_of_getCell_ne (m : Measure) (s t : Nat)
    (h : m.getCell s t ≠ Cell.mkEmpty) :
    s < m.grid.length ∧ t < (m.grid.getD s []).length := by
  by_cases hs : s < m.grid.length
  · refine ⟨hs, ?_⟩
    by_cases ht : t < (m.grid.getD s []).length
    · exact ht
    · exact absurd (by unfold Measure.getCell; rw [getD_of_le (by omega)]) h
  · refine absurd ?_ h
    unfold Measure.getCell
    rw [getD_of_le (show m.grid.length ≤ s by omega)]
    simp [List.getD]

theorem eraseHoldsFromAux_other {s s2 : Nat} (hne : s2 ≠ s) :
    ∀ fuel (m : Measure) (tt v : Nat),
      (Measure.eraseHoldsFromAux s fuel m tt).getCell s2 v = m.getCell s2 v := by
  intro fuel
  induction fuel with
  | zero => intro m tt v; rfl
  | succ f ih =>
    intro m tt v
    simp only [Measure.eraseHoldsFromAux]
    by_cases hg : tt < m.steps_per_bar ∧ (m.getCell s tt).kind = Kind.hold
    · rw [if_pos hg, ih, getCell_setCell_ne_row _ _ _ _ (Ne.symm hne)]
    · rw [if_neg hg]

theorem eraseHoldsFromAux_before {s : Nat} :
    ∀ fuel (m : Measure) (tt v : Nat), v < tt →
      (Measure.eraseHoldsFromAux s fuel m tt).getCell s v = m.getCell s v := by
  intro fuel
  induction fuel with
  | zero => intro m tt v h; rfl
  | succ f ih =>
    intro m tt v h
    simp only [Measure.eraseHoldsFromAux]
    by_cases hg : tt < m.steps_per_bar ∧ (m.getCell s tt).kind = Kind.hold
    · rw [if_pos hg, ih _ _ _ (by omega), getCell_setCell_ne_col _ _ _ (by omega)]
    · rw [if_neg hg]

theorem eraseHoldsFromAux_cleared {s : Nat} :
    ∀ fuel (m : Measure) (tt v : Nat), m.steps_per_bar - tt ≤ fuel →
      tt ≤ v → v < tt + m.countHolds s tt →
      (Measure.eraseHoldsFromAux s fuel m tt).getCell s v = Cell.mkEmpty := by
  intro fuel
  induction fuel with
  | zero =>
    intro m tt v hfuel h1 h2
    rw [countHolds_unfold, if_neg (fun hh => by omega)] at h2
    omega
  | succ f ih =>
    intro m tt v hfuel h1 h2
    simp only [Measure.eraseHoldsFromAux]
    by_cases hg : tt < m.steps_per_bar ∧ (m.getCell s tt).kind = Kind.hold
    · rw [if_pos hg]
      rcases Nat.eq_or_lt_of_le h1 with heq | hlt
      · subst heq
        rw [eraseHoldsFromAux_before f _ (tt + 1) tt (by omega)]
        have hne2 : m.getCell s tt ≠ Cell.mkEmpty := by
          intro hc
          rw [hc] at hg
          exact absurd hg.2 (by decide)
        have hin := in_range_of_getCell_ne m s tt hne2
        exact getCell_setCell_self m s tt Cell.mkEmpty hin.1 hin.2
      · have hch : (m.setCell s tt Cell.mkEmpty).countHolds s (tt + 1) =
            m.countHolds s (tt + 1) := countHolds_setCell_above m s (tt + 1) tt _ (by omega)
        refine ih (m.setCell s tt Cell.mkEmpty) (tt + 1) v (by simp [Measure.setCell]; omega)
          (by omega) ?_
        rw [hch]
        rw [countHolds_unfold, if_pos hg] at h2
        omega
    · rw [countHolds_unfold, if_neg hg] at h2
      omega

theorem eraseHoldsFromAux_beyond {s : Nat} :
    ∀ fuel (m : Measure) (tt v : Nat), m.steps_per_bar - tt ≤ fuel →
      tt + m.countHolds s tt ≤ v →
      (Measure.eraseHoldsFromAux s fuel m tt).getCell s v = m.getCell s v := by
  intro fuel
  induction fuel with
  | zero =>
    intro m tt v hfuel h1
    rfl
  | succ f ih =>
    intro m tt v hfuel h1
    simp only [Measure.eraseHoldsFromAux]
    by_cases hg : tt < m.steps_per_bar ∧ (m.getCell s tt).kind = Kind.hold
    · rw [if_pos hg]
      rw [countHolds_unfold, if_pos hg] at h1
      have hch : (m.setCell s tt Cell.mkEmpty).countHolds s (tt + 1) =
          m.countHolds s (tt + 1) := countHolds_setCell_above m s (tt + 1) tt _ (by omega)
      rw [ih (m.setCell s tt Cell.mkEmpty) (tt + 1) v (by simp [Measure.setCell]; omega)
        (by rw [hch]; omega)]
      exact getCell_setCell_ne_col m s Cell.mkEmpty (by omega)
    · rw [if_neg hg]

theorem default_measure_getCell (s t : Nat) :
    (default : Measure).getCell s t = Cell.mkEmpty := by
  show ((List.replicate 6 (List.replicate 16 Cell.mkEmpty)).getD s []).getD t Cell.mkEmpty =
    Cell.mkEmpty
  by_cases hs : s < 6
  · have h1 : (List.replicate 6 (List.replicate 16 Cell.mkEmpty)).getD s [] =
        List.replicate 16 Cell.mkEmpty := by
      rw [List.getD_eq_getElem?_getD, List.getElem?_replicate, if_pos hs]
      rfl
    rw [h1]
    by_cases ht : t < 16
    · rw [List.getD_eq_getElem?_getD, List.getElem?_replicate, if_pos ht]
      rfl
    · rw [List.getD_eq_getElem?_getD, List.getElem?_replicate, if_neg ht]
      rfl
  · have h1 : (List.replicate 6 (List.replicate 16 Cell.mkEmpty)).getD s [] = [] := by
      rw [List.getD_eq_getElem?_getD, List.getElem?_replicate, if_neg hs]
      rfl
    rw [h1]
    rfl

theorem tie_chain_lenAux_congr (s fret : Nat) :
    ∀ fuel (l1 l2 : List Measure) (mi : Nat), l1.length = l2.length →
      (∀ j, mi ≤ j → l1.getD j default = l2.getD j default) →
      tie_chain_lenAux l1 s fret fuel mi = tie_chain_lenAux l2 s fret fuel mi := by
  intro fuel
  induction fuel with
  | zero => intro l1 l2 mi hlen hc; rfl
  | succ f ih =>
    intro l1 l2 mi hlen hc
    simp only [tie_chain_lenAux]
    rw [hlen, hc mi (le_refl mi), ih l1 l2 (mi + 1) hlen (fun j hj => hc j (by omega))]

theorem tie_chain_lenAux_mem (s fret : Nat) :
    ∀ fuel (l : List Measure) (mi k : Nat), k < tie_chain_lenAux l s fret fuel mi →
      mi + k < l.length ∧
      ((l.getD (mi + k) default).getCell s 0).kind = Kind.tie ∧
      ((l.getD (mi + k) default).getCell s 0).fret = some fret := by
  intro fuel
  induction fuel with
  | zero => intro l mi k hk; simp [tie_chain_lenAux] at hk
  | succ f ih =>
    intro l mi k hk
    simp only [tie_chain_lenAux] at hk
    by_cases hg : mi < l.length ∧ ((l.getD mi default).getCell s 0).kind = Kind.tie ∧
        ((l.getD mi default).getCell s 0).fret = some fret
    · rw [if_pos hg] at hk
      cases k with
      | zero => simpa using hg
      | succ k =>
        have hr := ih l (mi + 1) k (by omega)
        rwa [show mi + 1 + k = mi + (k + 1) by omega] at hr
    · rw [if_neg hg] at hk
      omega

theorem tie_chain_lenAux_stop (s fret : Nat) :
    ∀ fuel (l : List Measure) (mi : Nat), tie_chain_lenAux l s fret fuel mi < fuel →
      ¬(mi + tie_chain_lenAux l s fret fuel mi < l.length ∧
        ((l.getD (mi + tie_chain_lenAux l s fret fuel mi) default).getCell s 0).kind =
          Kind.tie ∧
        ((l.getD (mi + tie_chain_lenAux l s fret fuel mi) default).getCell s 0).fret =
          some fret) := by
  intro fuel
  induction fuel with
  | zero => intro l mi h; omega
  | succ f ih =>
    intro l mi h
    by_cases hg : mi < l.length ∧ ((l.getD mi default).getCell s 0).kind = Kind.tie ∧
        ((l.getD mi default).getCell s 0).fret = some fret
    · have hunf : tie_chain_lenAux l s fret (f + 1) mi =
          1 + tie_chain_lenAux l s fret f (mi + 1) := by
        simp only [tie_chain_lenAux]
        rw [if_pos hg]
      rw [hunf] at h ⊢
      have hr := ih l (mi + 1) (by omega)
      rwa [show mi + 1 + tie_chain_lenAux l s fret f (mi + 1) =
        mi + (1 + tie_chain_lenAux l s fret f (mi + 1)) by omega] at hr
    · have hunf : tie_chain_lenAux l s fret (f + 1) mi = 0 := by
        simp only [tie_chain_lenAux]
        rw [if_neg hg]
      rw [hunf]
      simpa using hg

theorem delete_tie_chain_forwardAux_char (s fret : Nat) :
    ∀ fuel (l : List Measure) (mi : Nat),
      (delete_tie_chain_forwardAux s fret fuel l mi).length = l.length ∧
      (∀ j, j < mi →
        (delete_tie_chain_forwardAux s fret fuel l mi).getD j default = l.getD j default) ∧
      (∀ j, mi + tie_chain_lenAux l s fret fuel mi ≤ j →
        (delete_tie_chain_forwardAux s fret fuel l mi).getD j default = l.getD j default) ∧
      (∀ j, mi ≤ j → j < mi + tie_chain_lenAux l s fret fuel mi →
        (delete_tie_chain_forwardAux s fret fuel l mi).getD j default =
          (l.getD j default).delete_head_and_holds s 0) := by
  intro fuel
  induction fuel with
  | zero =>
    intro l mi
    exact ⟨rfl, fun j _ => rfl, fun j _ => rfl, fun j hj1 hj2 => by
      simp [tie_chain_lenAux] at hj2; omega⟩
  | succ f ih =>
    intro l mi
    simp only [delete_tie_chain_forwardAux, tie_chain_lenAux]
    by_cases h1 : mi < l.length
    · rw [if_pos h1]
      by_cases h2 : ((l.getD mi default).getCell s 0).kind = Kind.tie ∧
          ((l.getD mi default).getCell s 0).fret = some fret
      · rw [if_pos h2, if_pos ⟨h1, h2⟩]
        have hcongr : tie_chain_lenAux
            (l.set mi ((l.getD mi default).delete_head_and_holds s 0)) s fret f (mi + 1) =
            tie_chain_lenAux l s fret f (mi + 1) :=
          tie_chain_lenAux_congr s fret f _ l (mi + 1) (by simp)
            (fun j hj => getD_set_other (by omega) _)
        obtain ⟨ihlen, ihlt, ihge, ihmid⟩ :=
          ih (l.set mi ((l.getD mi default).delete_head_and_holds s 0)) (mi + 1)
        refine ⟨by rw [ihlen]; simp, ?_, ?_, ?_⟩
        · intro j hj
          rw [ihlt j (by omega), getD_set_other (by omega) _]
        · intro j hj
          rw [ihge j (by rw [hcongr]; omega), getD_set_other (by omega) _]
        · intro j hj1 hj2
          rcases Nat.eq_or_lt_of_le hj1 with heq | hlt2
          · rw [← heq]
            rw [ihlt mi (by omega), getD_set_self h1]
          · rw [ihmid j (by omega) (by rw [hcongr]; omega), getD_set_other (by omega) _]
      · rw [if_neg h2, if_neg (fun hh => h2 hh.2)]
        exact ⟨rfl, fun j _ => rfl, fun j _ => rfl, fun j hj1 hj2 => by omega⟩
    · rw [if_neg h1, if_neg (fun hh => h1 hh.1)]
      exact ⟨rfl, fun j _ => rfl, fun j _ => rfl, fun j hj1 hj2 => by omega⟩

/-- C4: `delete_at_cursor` on a `Hold` cell erases forward to the end of
its hold run only (the head behind it, earlier cells, other strings and
other measures are untouched); on a head it erases the head and its
forward hold run, then every consecutive same-fret step-0 `Tie` head with
its own hold run in the following measures, stopping at the first
non-matching cell (that measure and everything after are unchanged, and
`tie_chain_len` counts exactly the matching ties). After the 18-step
cross-measure placement scenario, deleting the original head leaves
string 0 of both measures entirely `Empty`. -/
theorem C4_delete_at_cursor (measures : List Measure) (mi s t : Nat) :
    (((measures.getD mi default).getCell s t).kind = Kind.hold →
      (delete_at_cursor measures mi s t).length = measures.length ∧
      (∀ j, j ≠ mi → (delete_at_cursor measures mi s t).getD j default =
        measures.getD j default) ∧
      (∀ s2 v, s2 ≠ s →
        ((delete_at_cursor measures mi s t).getD mi default).getCell s2 v =
          (measures.getD mi default).getCell s2 v) ∧
      (∀ v, v < t →
        ((delete_at_cursor measures mi s t).getD mi default).getCell s v =
          (measures.getD mi default).getCell s v) ∧
      (∀ v, t ≤ v → v < t + (measures.getD mi default).countHolds s t →
        ((delete_at_cursor measures mi s t).getD mi default).getCell s v = Cell.mkEmpty) ∧
      (∀ v, t + (measures.getD mi default).countHolds s t ≤ v →
        ((delete_at_cursor measures mi s t).getD mi default).getCell s v =
          (measures.getD mi default).getCell s v)) ∧
    (∀ f, ((measures.getD mi default).getCell s t).isHead →
      ((measures.getD mi default).getCell s t).fret = some f →
      (delete_at_cursor measures mi s t).length = measures.length ∧
      (∀ j, j < mi → (delete_at_cursor measures mi s t).getD j default =
        measures.getD j default) ∧
      (∀ s2 v, s2 ≠ s →
        ((delete_at_cursor measures mi s t).getD mi default).getCell s2 v =
          (measures.getD mi default).getCell s2 v) ∧
      (∀ v, v < t →
        ((delete_at_cursor measures mi s t).getD mi default).getCell s v =
          (measures.getD mi default).getCell s v) ∧
      (∀ v, t ≤ v → v < t + 1 + (measures.getD mi default).countHolds s (t + 1) →
        ((delete_at_cursor measures mi s t).getD mi default).getCell s v = Cell.mkEmpty) ∧
      (∀ v, t + 1 + (measures.getD mi default).countHolds s (t + 1) ≤ v →
        ((delete_at_cursor measures mi s t).getD mi default).getCell s v =
          (measures.getD mi default).getCell s v) ∧
      (∀ j, mi + 1 ≤ j → j < mi + 1 + tie_chain_len measures (mi + 1) s f →
        (delete_at_cursor measures mi s t).getD j default =
          (measures.getD j default).delete_head_and_holds s 0) ∧
      (∀ j, mi + 1 + tie_chain_len measures (mi + 1) s f ≤ j →
        (delete_at_cursor measures mi s t).getD j default = measures.getD j default) ∧
      (∀ k, k < tie_chain_len measures (mi + 1) s f →
        mi + 1 + k < measures.length ∧
        ((measures.getD (mi + 1 + k) default).getCell s 0).kind = Kind.tie ∧
        ((measures.getD (mi + 1 + k) default).getCell s 0).fret = some f) ∧
      (mi + 1 + tie_chain_len measures (mi + 1) s f < measures.length →
        ¬(((measures.getD (mi + 1 + tie_chain_len measures (mi + 1) s f)
            default).getCell s 0).kind = Kind.tie ∧
          ((measures.getD (mi + 1 + tie_chain_len measures (mi + 1) s f)
            default).getCell s 0).fret = some f))) ∧
    (∀ tt, tt < 16 →
      ((delete_at_cursor scenarioDoc 0 0 0).getD 0 default).getCell 0 tt = Cell.mkEmpty ∧
      ((delete_at_cursor scenarioDoc 0 0 0).getD 1 default).getCell 0 tt = Cell.mkEmpty) := by
  refine ⟨?_, ?_, by decide⟩
  · intro hc
    have hml : mi < measures.length := by
      by_contra hcon
      rw [getD_of_le (by omega), default_measure_getCell] at hc
      exact absurd hc (by decide)
    have hred : delete_at_cursor measures mi s t =
        measures.set mi ((measures.getD mi default).shorten_from_hold s t) := by
      simp only [delete_at_cursor]
      rw [if_pos hc]
    rw [hred, getD_set_self hml]
    refine ⟨by simp, fun j hj => getD_set_other hj _, ?_, ?_, ?_, ?_⟩
    · intro s2 v hs2
      exact eraseHoldsFromAux_other hs2 _ _ _ _
    · intro v hv
      exact eraseHoldsFromAux_before _ _ _ _ hv
    · intro v hv1 hv2
      exact eraseHoldsFromAux_cleared _ _ _ _ (le_refl _) hv1 hv2
    · intro v hv
      exact eraseHoldsFromAux_beyond _ _ _ _ (le_refl _) hv
  · intro f hh hf
    have hml : mi < measures.length := by
      by_contra hcon
      rw [getD_of_le (by omega), default_measure_getCell] at hh
      rcases hh with h | h <;> exact absurd h (by decide)
    have hnothold : ¬((measures.getD mi default).getCell s t).kind = Kind.hold := by
      rcases hh with h | h <;> rw [h] <;> decide
    have hne : (measures.getD mi default).getCell s t ≠ Cell.mkEmpty := by
      intro hcon
      rw [hcon] at hh
      rcases hh with h | h <;> exact absurd h (by decide)
    have hin := in_range_of_getCell_ne _ s t hne
    have hred : delete_at_cursor measures mi s t = delete_tie_chain_forward
        (measures.set mi ((measures.getD mi default).delete_head_and_holds s t))
        (mi + 1) s f := by
      simp only [delete_at_cursor]
      rw [if_neg hnothold, if_pos hh, hf]
    rw [hred]
    simp only [delete_tie_chain_forward]
    have hlenset : (measures.set mi
        ((measures.getD mi default).delete_head_and_holds s t)).length =
        measures.length := by simp
    obtain ⟨clen, clt, cge, cmid⟩ := delete_tie_chain_forwardAux_char s f
      ((measures.set mi ((measures.getD mi default).delete_head_and_holds s t)).length -
        (mi + 1))
      (measures.set mi ((measures.getD mi default).delete_head_and_holds s t)) (mi + 1)
    have hLL : tie_chain_lenAux
        (measures.set mi ((measures.getD mi default).delete_head_and_holds s t)) s f
        ((measures.set mi ((measures.getD mi default).delete_head_and_holds s t)).length -
          (mi + 1)) (mi + 1) = tie_chain_len measures (mi + 1) s f := by
      rw [hlenset]
      exact tie_chain_lenAux_congr s f _ _ measures (mi + 1) (by simp)
        (fun j hj => getD_set_other (by omega) _)
    have hgdmi : ∀ res : List Measure,
        res.getD mi default =
          (measures.set mi ((measures.getD mi default).delete_head_and_holds s t)).getD mi
            default →
        res.getD mi default = (measures.getD mi default).delete_head_and_holds s t := by
      intro res hres
      rw [hres, getD_set_self hml]
    have hmi := hgdmi _ (clt mi (by omega))
    refine ⟨by rw [clen]; simp, ?_, ?_, ?_, ?_, ?_, ?_, ?_, ?_, ?_⟩
    · intro j hj
      rw [clt j (by omega), getD_set_other (by omega) _]
    · intro s2 v hs2
      rw [hmi]
      show ((((measures.getD mi default).setCell s t Cell.mkEmpty).eraseHoldsFrom s
        (t + 1)).getCell s2 v) = _
      unfold Measure.eraseHoldsFrom
      rw [eraseHoldsFromAux_other hs2 _ _ _ _,
        getCell_setCell_ne_row _ _ _ _ (Ne.symm hs2)]
    · intro v hv
      rw [hmi]
      show ((((measures.getD mi default).setCell s t Cell.mkEmpty).eraseHoldsFrom s
        (t + 1)).getCell s v) = _
      unfold Measure.eraseHoldsFrom
      rw [eraseHoldsFromAux_before _ _ _ _ (by omega),
        getCell_setCell_ne_col _ _ _ (by omega)]
    · intro v hv1 hv2
      rw [hmi]
      show ((((measures.getD mi default).setCell s t Cell.mkEmpty).eraseHoldsFrom s
        (t + 1)).getCell s v) = _
      unfold Measure.eraseHoldsFrom
      rcases Nat.eq_or_lt_of_le hv1 with heq | hlt2
      · rw [← heq]
        rw [eraseHoldsFromAux_before _ _ _ _ (by omega)]
        exact getCell_setCell_self _ s t Cell.mkEmpty hin.1 hin.2
      · refine eraseHoldsFromAux_cleared _ _ _ _ (le_refl _) (by omega) ?_
        rw [countHolds_setCell_above _ s (t + 1) t _ (by omega)]
        omega
    · intro v hv
      rw [hmi]
      show ((((measures.getD mi default).setCell s t Cell.mkEmpty).eraseHoldsFrom s
        (t + 1)).getCell s v) = _
      unfold Measure.eraseHoldsFrom
      rw [eraseHoldsFromAux_beyond _ _ _ _ (le_refl _)
        (by rw [countHolds_setCell_above _ s (t + 1) t _ (by omega)]; omega),
        getCell_setCell_ne_col _ _ _ (by omega)]
    · intro j hj1 hj2
      rw [cmid j (by omega) (by rw [hLL]; omega), getD_set_other (by omega) _]
    · intro j hj
      rw [cge j (by rw [hLL]; omega), getD_set_other (by omega) _]
    · intro k hk
      exact tie_chain_lenAux_mem s f _ measures (mi + 1) k hk
    · intro hlt hcon
      have hstop := tie_chain_lenAux_stop s f (measures.length - (mi + 1)) measures (mi + 1)
        (by unfold tie_chain_len at hlt; omega)
      exact hstop ⟨hlt, hcon.1, hcon.2⟩

/-- Witness for C4: a hold-cell shorten that leaves the head alone, and
the scenario head delete erasing the appended measure's tie head. -/
theorem C4_witness :
    ((delete_at_cursor tieAdjDoc 0 0 1).getD 0 default).getCell 0 0 =
      (tieAdjDoc.getD 0 default).getCell 0 0 ∧
    ((delete_at_cursor tieAdjDoc 0 0 1).getD 0 default).getCell 0 2 = Cell.mkEmpty ∧
    ((delete_at_cursor scenarioDoc 0 0 0).getD 0 default).getCell 0 5 = Cell.mkEmpty ∧
    (delete_at_cursor scenarioDoc 0 0 0).getD 1 default =
      (scenarioDoc.getD 1 default).delete_head_and_holds 0 0 ∧
    (delete_at_cursor scenarioDoc 0 0 0).length = scenarioDoc.length :=
  ⟨((C4_delete_at_cursor tieAdjDoc 0 0 1).1 (by decide)).2.2.2.1 0 (by decide),
   ((C4_delete_at_cursor tieAdjDoc 0 0 1).1 (by decide)).2.2.2.2.1 2 (by decide) (by decide),
   ((C4_delete_at_cursor scenarioDoc 0 0 0).2.1 3 (by decide) (by decide)).2.2.2.2.1 5
     (by decide) (by decide),
   ((C4_delete_at_cursor scenarioDoc 0 0 0).2.1 3 (by decide) (by decide)).2.2.2.2.2.2.1 1
     (by decide) (by decide),
   ((C4_delete_at_cursor scenarioDoc 0 0 0).2.1 3 (by decide) (by decide)).1⟩

/-! ## C8: MIDI event counts and tick ordering. -/

theorem countP_flatMap {α β : Type} (p : β → Bool) (f : α → List β) :
    ∀ l : List α, (l.flatMap f).countP p = (l.map (fun x => (f x).countP p)).sum := by
  intro l
  induction l with
  | nil => rfl
  | cons a l ih => simp [List.flatMap_cons, List.countP_append, ih]

theorem sum_indicator_countP {α : Type} (p : α → Bool) :
    ∀ l : List α, (l.map (fun x => if p x then 1 else 0)).sum = l.countP p := by
  intro l
  induction l with
  | nil => rfl
  | cons a l ih =>
    simp only [List.map_cons, List.sum_cons, List.countP_cons, ih]
    by_cases hp : p a
    · simp only [hp, if_true]
      omega
    · simp [hp]

theorem export_countP (ast : AppState) (p : MidiEvent → Bool)
    (hp1 : ∀ mpqn, p (0, MidiMsg.tempo mpqn) = false)
    (hp2 : ∀ pr, p (0, MidiMsg.prog pr) = false)
    (hpair : ∀ t1 t2 pi v1 v2,
      ((if p (t1, MidiMsg.noteOn pi v1) then 1 else 0) : Nat) +
        (if p (t2, MidiMsg.noteOff pi v2) then 1 else 0) = 1) :
    (export_midi_events ast).countP p = noteHeadCount ast.measures := by
  unfold export_midi_events noteHeadCount
  rw [List.countP_append]
  have hpre : ∀ a b : Nat,
      ([(0, MidiMsg.tempo a), (0, MidiMsg.prog b)] : List MidiEvent).countP p = 0 := by
    intro a b
    simp [List.countP_cons, hp1, hp2]
  rw [hpre, countP_flatMap]
  simp only [Nat.zero_add]
  congr 1
  apply List.map_congr_left
  intro mi _
  rw [countP_flatMap]
  unfold Measure.noteHeadCount
  congr 1
  apply List.map_congr_left
  intro s _
  rw [countP_flatMap]
  rw [← List.countP_eq_length_filter, ← sum_indicator_countP]
  congr 1
  apply List.map_congr_left
  intro stp _
  by_cases hc : ((ast.measures.getD mi default).getCell s stp).kind = Kind.note ∧
      ((ast.measures.getD mi default).getCell s stp).fret ≠ none
  · rw [if_pos hc, List.countP_cons, List.countP_cons, List.countP_nil,
      if_pos (decide_eq_true hc)]
    have hp2 := hpair
      (pyRoundDiv (mi * (480 * 4) * (ast.measures.getD mi default).steps_per_bar +
        stp * (480 * 4)) (ast.measures.getD mi default).steps_per_bar)
      (calc_end_tick ast.measures mi stp (calc_note_total_steps ast.measures mi s stp)
        (480 * 4))
      ((TUNING_MIDI.getD s 0 +
        ((ast.measures.getD mi default).getCell s stp).fret.getD 0) % 128) 100 0
    omega
  · rw [if_neg hc, if_neg (fun hh => hc (of_decide_eq_true hh))]
    rfl

theorem delta_roundtrip :
    ∀ (l : List Nat) (last : Int),
      delta_decode last (delta_encode last l) = l.map (fun n : Nat => (n : Int)) := by
  intro l
  induction l with
  | nil => intro last; rfl
  | cons t ts ih =>
    intro last
    have hadd : last + ((t : Int) - last) = (t : Int) := by ring
    simp [delta_encode, delta_decode, hadd, ih]

/-- C8 (amended): the MIDI export emits exactly one note-on and one
note-off per `Note` head (tie heads contribute none: on- and off-counts
both equal the note-head count), and delta-decoding the written track
recovers the sorted absolute ticks, which are sorted non-decreasing
(not strictly: simultaneous events — the tempo and program-change
events at tick 0, chords, and back-to-back notes — share ticks). -/
theorem C8_midi_counts_and_order (ast : AppState) :
    (export_midi_events ast).countP (fun e => e.2.isOn) = noteHeadCount ast.measures ∧
    (export_midi_events ast).countP (fun e => e.2.isOff) = noteHeadCount ast.measures ∧
    delta_decode 0 (written_track_deltas ast) =
      ((sorted_events (export_midi_events ast)).map Prod.fst).map (fun n : Nat => (n : Int)) ∧
    List.Pairwise (fun a b : Int => a ≤ b) (delta_decode 0 (written_track_deltas ast)) := by
  have hdec : delta_decode 0 (written_track_deltas ast) =
      ((sorted_events (export_midi_events ast)).map Prod.fst).map (fun n : Nat => (n : Int)) := by
    unfold written_track_deltas
    exact delta_roundtrip _ 0
  refine ⟨?_, ?_, hdec, ?_⟩
  · exact export_countP ast _ (fun _ => rfl) (fun _ => rfl) (fun _ _ _ _ _ => rfl)
  · exact export_countP ast _ (fun _ => rfl) (fun _ => rfl) (fun _ _ _ _ _ => rfl)
  · rw [hdec]
    have hsorted : List.Pairwise evKeyLe (sorted_events (export_midi_events ast)) :=
      List.sorted_insertionSort evKeyLe (export_midi_events ast)
    exact (hsorted.map Prod.fst (fun a b h => h)).map (fun n : Nat => (n : Int))
      (fun a b h => by show ((a : Int) ≤ (b : Int)); exact_mod_cast h)

/-- C8 counterexample: on `chordDoc` (two simultaneous notes) the
delta-decoded tick sequence is not strictly ascending — the tempo,
program-change and both note-ons all sit at tick 0, and the two note-offs
share their tick as well. -/
theorem C8_counterexample :
    noteHeadCount chordDoc = 2 ∧
    (export_midi_events ⟨chordDoc, 120, 25, "0"⟩).countP (fun e => e.2.isOn) = 2 ∧
    ¬ List.Pairwise (fun a b : Int => a < b)
      (delta_decode 0 (written_track_deltas ⟨chordDoc, 120, 25, "0"⟩)) := by
  refine ⟨by decide, by decide, by decide⟩

theorem endTickLoopAux_in_measure (measures : List Measure) (mi : Nat)
    (hmi : mi < measures.length) :
    ∀ fuel n stp, n ≤ fuel → stp + n < (measures.getD mi default).steps_per_bar →
      endTickLoopAux measures fuel mi stp n = (mi, stp + n) := by
  intro fuel
  induction fuel with
  | zero =>
    intro n stp hn _
    have hn0 : n = 0 := Nat.le_zero.mp hn
    subst hn0
    rfl
  | succ f ih =>
    intro n stp hn hlt
    cases n with
    | zero =>
      show endTickLoopAux measures (f + 1) mi stp 0 = (mi, stp + 0)
      simp only [endTickLoopAux]
      rw [if_neg (fun hh => Nat.lt_irrefl 0 hh.1)]
      rfl
    | succ k =>
      show endTickLoopAux measures (f + 1) mi stp (k + 1) = (mi, stp + (k + 1))
      simp only [endTickLoopAux]
      rw [if_pos ⟨Nat.succ_pos k, hmi⟩, if_neg (by omega)]
      rw [show k + 1 - 1 = k from rfl, ih k (stp + 1) (by omega) (by omega)]
      have hadd : stp + 1 + k = stp + (k + 1) := by omega
      rw [hadd]

theorem endTickLoop_in_measure (measures : List Measure) (mi stp n : Nat)
    (hmi : mi < measures.length)
    (hlt : stp + n < (measures.getD mi default).steps_per_bar) :
    endTickLoop measures mi stp n = (mi, stp + n) := by
  unfold endTickLoop
  exact endTickLoopAux_in_measure measures mi hmi (n + measures.length) n stp
    (Nat.le_add_right n measures.length) hlt

theorem spec_walk_in_measure (measures : List Measure) (mi : Nat)
    (hmi : mi < measures.length) :
    ∀ n stp, stp + n < (measures.getD mi default).steps_per_bar →
      spec_walk_pos measures n (mi, stp) = some (mi, stp + n) := by
  intro n
  induction n with
  | zero => intro stp _; rfl
  | succ k ih =>
    intro stp hlt
    have hpn : pos_next measures mi stp = some (mi, stp + 1) := by
      unfold pos_next
      rw [if_neg (by omega), if_pos (by omega)]
    show spec_walk_pos measures (k + 1) (mi, stp) = some (mi, stp + (k + 1))
    simp only [spec_walk_pos]
    rw [hpn]
    show spec_walk_pos measures k (mi, stp + 1) = some (mi, stp + (k + 1))
    rw [ih (stp + 1) (by omega)]
    have hadd : stp + 1 + k = stp + (k + 1) := by omega
    rw [hadd]

/-- C3 (corrected): for every `Note` head with a fret, `export_midi` emits
a note-on at the exactly rounded start tick
`round(mi * ticks_per_measure + stp * step_tick)` with pitch
`open_string + fret` whenever that sum is a legal 7-bit pitch (in general
the pitch is masked with `& 0x7F`, see the counterexample), and a note-off
at `_calc_end_tick` of `_calc_note_total_steps` steps. When the note ends
inside its own measure, that note-off tick equals the tick of the position
reached by walking forward exactly `note_total_steps` grid positions, as
the spec words it — but NOT in general: the end-tick loop consumes no
step when it crosses a bar line, landing one grid position late per
crossed measure (see `C3_counterexample`). Tie heads contribute no on/off
pair of their own: the note-on count equals the `Note`-head count. -/
theorem C3_midi_note_events (ast : AppState) (mi s stp f : Nat)
    (hmi : mi < ast.measures.length) (hs : s < 6)
    (hstp : stp < (ast.measures.getD mi default).steps_per_bar)
    (hcell : (ast.measures.getD mi default).getCell s stp = ⟨Kind.note, some f⟩)
    (hpitch : TUNING_MIDI.getD s 0 + f < 128) :
    (pyRoundDiv (mi * (480 * 4) * (ast.measures.getD mi default).steps_per_bar +
        stp * (480 * 4)) (ast.measures.getD mi default).steps_per_bar,
      MidiMsg.noteOn (TUNING_MIDI.getD s 0 + f) 100) ∈ export_midi_events ast ∧
    (calc_end_tick ast.measures mi stp (calc_note_total_steps ast.measures mi s stp) (480 * 4),
      MidiMsg.noteOff (TUNING_MIDI.getD s 0 + f) 0) ∈ export_midi_events ast ∧
    (stp + calc_note_total_steps ast.measures mi s stp <
        (ast.measures.getD mi default).steps_per_bar →
      calc_end_tick ast.measures mi stp (calc_note_total_steps ast.measures mi s stp)
          (480 * 4) =
        spec_off_tick ast.measures mi stp (calc_note_total_steps ast.measures mi s stp)
          (480 * 4)) ∧
    (export_midi_events ast).countP (fun e => e.2.isOn) = noteHeadCount ast.measures := by
  have hmask : (TUNING_MIDI.getD s 0 + f) % 128 = TUNING_MIDI.getD s 0 + f :=
    Nat.mod_eq_of_lt hpitch
  have hin : ∀ e : MidiEvent,
      e ∈ ([(pyRoundDiv (mi * (480 * 4) * (ast.measures.getD mi default).steps_per_bar +
              stp * (480 * 4)) (ast.measures.getD mi default).steps_per_bar,
             MidiMsg.noteOn ((TUNING_MIDI.getD s 0 + f) % 128) 100),
            (calc_end_tick ast.measures mi stp
               (calc_note_total_steps ast.measures mi s stp) (480 * 4),
             MidiMsg.noteOff ((TUNING_MIDI.getD s 0 + f) % 128) 0)] : List MidiEvent) →
      e ∈ export_midi_events ast := by
    intro e he
    simp only [export_midi_events, List.mem_append, List.mem_flatMap, List.mem_range]
    right
    refine ⟨mi, hmi, s, hs, stp, hstp, ?_⟩
    rw [hcell]
    rw [if_pos (⟨rfl, by simp⟩ :
      (Cell.mk Kind.note (some f)).kind = Kind.note ∧
        (Cell.mk Kind.note (some f)).fret ≠ none)]
    simpa using he
  refine ⟨?_, ?_, ?_, ?_⟩
  · have h1 := hin (pyRoundDiv (mi * (480 * 4) *
        (ast.measures.getD mi default).steps_per_bar + stp * (480 * 4))
        (ast.measures.getD mi default).steps_per_bar,
      MidiMsg.noteOn ((TUNING_MIDI.getD s 0 + f) % 128) 100) (by simp)
    rwa [hmask] at h1
  · have h2 := hin (calc_end_tick ast.measures mi stp
        (calc_note_total_steps ast.measures mi s stp) (480 * 4),
      MidiMsg.noteOff ((TUNING_MIDI.getD s 0 + f) % 128) 0) (by simp)
    rwa [hmask] at h2
  · intro hfit
    have hloop := endTickLoop_in_measure ast.measures mi stp
      (calc_note_total_steps ast.measures mi s stp) hmi hfit
    have hwalk := spec_walk_in_measure ast.measures mi hmi
      (calc_note_total_steps ast.measures mi s stp) stp hfit
    simp only [calc_end_tick, spec_off_tick]
    rw [hloop, hwalk]
    dsimp only
    rw [if_neg (by omega)]
  · exact export_countP ast _ (fun _ => rfl) (fun _ => rfl) (fun _ _ _ _ _ => rfl)

/-- C3 counterexample: in the 18-step cross-measure scenario the
specification's walk ends the note at tick 2160, but `_calc_end_tick`
skips the `remaining` decrement when crossing the bar line and lands one
grid position later, so the only note-off is emitted at tick 2280; and a
fret-100 note on string 1 is emitted with the masked pitch 31, not the
raw `open_string + fret = 159`. -/
theorem C3_counterexample :
    calc_note_total_steps scenarioDoc 0 0 0 = 18 ∧
    spec_off_tick scenarioDoc 0 0 18 (480 * 4) = 2160 ∧
    calc_end_tick scenarioDoc 0 0 18 (480 * 4) = 2280 ∧
    (export_midi_events ⟨scenarioDoc, 120, 25, "0"⟩).filter (fun e => e.2.isOff) =
      [(2280, MidiMsg.noteOff 67 0)] ∧
    (2280 : Nat) ≠ 2160 ∧
    TUNING_MIDI.getD 1 0 + 100 = 159 ∧
    (export_midi_events ⟨maskDoc, 120, 25, "0"⟩).filter (fun e => e.2.isOn) =
      [(0, MidiMsg.noteOn 31 100)] ∧
    (31 : Nat) ≠ 159 := by
  refine ⟨by decide, by decide, by decide, by decide, by decide, by decide, by decide,
    by decide⟩

theorem C3_witness :
    (0, MidiMsg.noteOn 67 100) ∈ export_midi_events ⟨scenarioDoc, 120, 25, "0"⟩ ∧
    (2280, MidiMsg.noteOff 67 0) ∈ export_midi_events ⟨scenarioDoc, 120, 25, "0"⟩ ∧
    calc_end_tick tieGapDoc 0 0 (calc_note_total_steps tieGapDoc 0 0 0) (480 * 4) =
      spec_off_tick tieGapDoc 0 0 (calc_note_total_steps tieGapDoc 0 0 0) (480 * 4) := by
  have h := C3_midi_note_events ⟨scenarioDoc, 120, 25, "0"⟩ 0 0 0 3
    (by decide) (by decide) (by decide) (by decide) (by decide)
  have h2 := C3_midi_note_events ⟨tieGapDoc, 120, 25, "0"⟩ 0 0 0 3
    (by decide) (by decide) (by decide) (by decide) (by decide)
  exact ⟨h.1, h.2.1, h2.2.2.1 (by decide)⟩

theorem getD_replicate_lt {α : Type} {k i : Nat} (a d : α) (h : i < k) :
    (List.replicate k a).getD i d = a := by
  rw [List.getD_eq_getElem?_getD, List.getElem?_replicate, if_pos h]
  rfl

theorem rebuilt_getCell (n s d : Nat) :
    (Measure.mk n (List.replicate 6 (List.replicate n Cell.mkEmpty))).getCell s d
      = Cell.mkEmpty := by
  show ((List.replicate 6 (List.replicate n Cell.mkEmpty)).getD s []).getD d Cell.mkEmpty
    = Cell.mkEmpty
  by_cases hs : s < 6
  · rw [getD_replicate_lt _ _ hs]
    by_cases hd : d < n
    · exact getD_replicate_lt _ _ hd
    · exact getD_of_le (by rw [List.length_replicate]; omega)
  · have h0 : (List.replicate 6 (List.replicate n Cell.mkEmpty)).getD s [] = [] :=
      getD_of_le (by rw [List.length_replicate]; omega)
    rw [h0]
    rfl

theorem getCell_setCell_oob (acc : Measure) (s d : Nat) (c : Cell) (n : Nat)
    (hlen : acc.grid.length = 6)
    (hrow : ∀ u, u < 6 → (acc.grid.getD u []).length = n)
    (hout : ¬ (s < 6 ∧ d < n)) :
    (acc.setCell s d c).getCell s d = acc.getCell s d := by
  by_cases hs : s < 6
  · have hd : n ≤ d := by omega
    show ((acc.grid.set s ((acc.grid.getD s []).set d c)).getD s []).getD d Cell.mkEmpty
      = (acc.grid.getD s []).getD d Cell.mkEmpty
    rw [getD_set_self (show s < acc.grid.length by omega)]
    rw [List.set_eq_of_length_le (by rw [hrow s hs]; exact hd)]
  · show ((acc.grid.set s ((acc.grid.getD s []).set d c)).getD s []).getD d Cell.mkEmpty
      = (acc.grid.getD s []).getD d Cell.mkEmpty
    rw [List.set_eq_of_length_le (by omega)]

theorem resize_eq_fold (m : Measure) (n : Nat) (hne : n ≠ m.steps_per_bar) :
    m.resize n = m.heads.foldl
      (fun acc h => acc.setCell h.1 (resize_dest m.steps_per_bar n h.2.1)
        ⟨h.2.2.1, h.2.2.2⟩)
      (Measure.mk n (List.replicate 6 (List.replicate n Cell.mkEmpty))) := by
  simp only [Measure.resize, resize_dest]
  rw [if_neg hne]

theorem resize_fold_steps (old n : Nat) :
    ∀ (hl : List (Nat × Nat × Kind × Option Nat)) (acc : Measure),
      (hl.foldl (fun a h => a.setCell h.1 (resize_dest old n h.2.1) ⟨h.2.2.1, h.2.2.2⟩)
        acc).steps_per_bar = acc.steps_per_bar := by
  intro hl
  induction hl with
  | nil => intro acc; rfl
  | cons h hl ih =>
    intro acc
    rw [List.foldl_cons, ih, steps_setCell]

theorem resize_fold_getCell (old n : Nat) :
    ∀ (hl : List (Nat × Nat × Kind × Option Nat)) (acc : Measure),
      acc.grid.length = 6 →
      (∀ u, u < 6 → (acc.grid.getD u []).length = n) →
      ∀ s d : Nat,
      (hl.foldl (fun a h => a.setCell h.1 (resize_dest old n h.2.1) ⟨h.2.2.1, h.2.2.2⟩)
          acc).getCell s d =
        match (hl.filter (fun h => decide (h.1 = s ∧ resize_dest old n h.2.1 = d))).getLast?
            with
        | some hh => if s < 6 ∧ d < n then (⟨hh.2.2.1, hh.2.2.2⟩ : Cell) else acc.getCell s d
        | none => acc.getCell s d := by
  intro hl
  induction hl with
  | nil => intro acc _ _ s d; rfl
  | cons h hl ih =>
    intro acc hlen hrow s d
    rw [List.foldl_cons, List.filter_cons]
    have hlen' : (acc.setCell h.1 (resize_dest old n h.2.1)
        (⟨h.2.2.1, h.2.2.2⟩ : Cell)).grid.length = 6 := by
      rw [length_grid_setCell]
      exact hlen
    have hrow' : ∀ u, u < 6 →
        (((acc.setCell h.1 (resize_dest old n h.2.1)
          (⟨h.2.2.1, h.2.2.2⟩ : Cell)).grid.getD u []).length = n) := by
      intro u hu
      by_cases he : h.1 = u
      · subst he
        rw [setCell_row_getD, List.length_set]
        exact hrow h.1 hu
      · show ((acc.grid.set h.1 ((acc.grid.getD h.1 []).set (resize_dest old n h.2.1)
          (⟨h.2.2.1, h.2.2.2⟩ : Cell))).getD u []).length = n
        rw [getD_set_of_ne he]
        exact hrow u hu
    rw [ih _ hlen' hrow' s d]
    by_cases hp : h.1 = s ∧ resize_dest old n h.2.1 = d
    · rw [if_pos (decide_eq_true hp)]
      have hoob : ¬ (s < 6 ∧ d < n) →
          (acc.setCell h.1 (resize_dest old n h.2.1)
            (⟨h.2.2.1, h.2.2.2⟩ : Cell)).getCell s d = acc.getCell s d := by
        intro ho
        rw [hp.1, hp.2]
        exact getCell_setCell_oob acc s d _ n hlen hrow ho
      rcases hfl : (hl.filter fun h => decide (h.1 = s ∧ resize_dest old n h.2.1 = d)) with
        _ | ⟨x, xs⟩
      · rw [hfl]
        simp only [List.getLast?_nil, List.getLast?_singleton]
        show (acc.setCell h.1 (resize_dest old n h.2.1)
            (⟨h.2.2.1, h.2.2.2⟩ : Cell)).getCell s d =
          if s < 6 ∧ d < n then (⟨h.2.2.1, h.2.2.2⟩ : Cell) else acc.getCell s d
        by_cases ho : s < 6 ∧ d < n
        · rw [if_pos ho, hp.1, hp.2]
          exact getCell_setCell_self acc s d _ (by omega) (by rw [hrow s ho.1]; exact ho.2)
        · rw [if_neg ho]
          exact hoob ho
      · rw [hfl, List.getLast?_cons_cons]
        have hsome : ∃ hh, (x :: xs).getLast? = some hh := by
          cases hq : (x :: xs).getLast? with
          | some hh => exact ⟨hh, rfl⟩
          | none => exact absurd (List.getLast?_eq_none_iff.mp hq) (by simp)
        obtain ⟨hh, hhh⟩ := hsome
        rw [hhh]
        dsimp only
        by_cases ho : s < 6 ∧ d < n
        · rw [if_pos ho, if_pos ho]
        · rw [if_neg ho, if_neg ho, hoob ho]
    · rw [if_neg (fun hh => hp (of_decide_eq_true hh))]
      have hcc : (acc.setCell h.1 (resize_dest old n h.2.1)
          (⟨h.2.2.1, h.2.2.2⟩ : Cell)).getCell s d = acc.getCell s d := by
        by_cases he : h.1 = s
        · have hne2 : resize_dest old n h.2.1 ≠ d := fun hd => hp ⟨he, hd⟩
          rw [he]
          exact getCell_setCell_ne_col acc s _ hne2
        · exact getCell_setCell_ne_row acc _ _ _ he
      rw [hcc]

theorem heads_cell_eq {m : Measure} {s t : Nat} {x : Nat × Nat × Kind × Option Nat}
    (hx : (if (m.getCell s t).isHead
           then some (s, t, (m.getCell s t).kind, (m.getCell s t).fret) else none) = some x) :
    x = (s, t, (m.getCell s t).kind, (m.getCell s t).fret) ∧ (m.getCell s t).isHead := by
  by_cases hc : (m.getCell s t).isHead
  · rw [if_pos hc] at hx
    exact ⟨(Option.some.inj hx).symm, hc⟩
  · rw [if_neg hc] at hx
    exact Option.noConfusion hx

theorem heads_kind (m : Measure) :
    ∀ hh ∈ m.heads, hh.2.2.1 = Kind.note ∨ hh.2.2.1 = Kind.tie := by
  intro hh hmem
  unfold Measure.heads at hmem
  obtain ⟨s, _, hmem2⟩ := List.mem_flatMap.mp hmem
  obtain ⟨t, _, hg⟩ := List.mem_filterMap.mp hmem2
  obtain ⟨hx, hc⟩ := heads_cell_eq hg
  rw [hx]
  exact hc

theorem pairwise_filterMap_of {α β : Type} (S : β → β → Prop) (R : α → α → Prop)
    (g : α → Option β) :
    ∀ (l : List α), l.Pairwise R →
      (∀ a b, R a b → ∀ x, g a = some x → ∀ y, g b = some y → S x y) →
      (l.filterMap g).Pairwise S := by
  intro l
  induction l with
  | nil => intro _ _; exact List.Pairwise.nil
  | cons a l ih =>
    intro hp himp
    rw [List.filterMap_cons]
    cases hga : g a with
    | none =>
      show (List.filterMap g l).Pairwise S
      exact ih hp.of_cons himp
    | some x =>
      show (x :: List.filterMap g l).Pairwise S
      apply List.pairwise_cons.mpr
      refine ⟨?_, ih hp.of_cons himp⟩
      intro y hy
      obtain ⟨b, hb, hgb⟩ := List.mem_filterMap.mp hy
      exact himp a b ((List.pairwise_cons.mp hp).1 b hb) x hga y hgb

theorem pairwise_flatMap_of {α β : Type} (R : β → β → Prop) (f : α → List β) :
    ∀ (l : List α),
      (∀ a ∈ l, (f a).Pairwise R) →
      l.Pairwise (fun a b => ∀ x ∈ f a, ∀ y ∈ f b, R x y) →
      (l.flatMap f).Pairwise R := by
  intro l
  induction l with
  | nil => intro _ _; exact List.Pairwise.nil
  | cons a l ih =>
    intro hin hcross
    rw [List.flatMap_cons]
    apply List.pairwise_append.mpr
    refine ⟨hin a (List.mem_cons_self a l),
      ih (fun b hb => hin b (List.mem_cons_of_mem a hb)) hcross.of_cons, ?_⟩
    intro x hx y hy
    obtain ⟨b, hb, hyb⟩ := List.mem_flatMap.mp hy
    exact (List.pairwise_cons.mp hcross).1 b hb x hx y hyb

theorem heads_pairwise (m : Measure) :
    m.heads.Pairwise (fun a b => a.1 = b.1 → a.2.1 < b.2.1) := by
  unfold Measure.heads
  apply pairwise_flatMap_of
  · intro s _
    refine pairwise_filterMap_of _ (fun t1 t2 : Nat => t1 < t2) _
      (List.range m.steps_per_bar) (List.pairwise_lt_range m.steps_per_bar) ?_
    intro t1 t2 hlt x hgx y hgy
    obtain ⟨hx, _⟩ := heads_cell_eq hgx
    obtain ⟨hy, _⟩ := heads_cell_eq hgy
    subst hx
    subst hy
    intro _
    simpa using hlt
  · refine List.Pairwise.imp_of_mem ?_ (List.pairwise_lt_range 6)
    intro s1 s2 _ _ hlt x hx y hy hxy
    obtain ⟨t1, _, hg1⟩ := List.mem_filterMap.mp hx
    obtain ⟨t2, _, hg2⟩ := List.mem_filterMap.mp hy
    obtain ⟨hx1, _⟩ := heads_cell_eq hg1
    obtain ⟨hy1, _⟩ := heads_cell_eq hg2
    rw [hx1, hy1] at hxy
    dsimp at hxy
    omega

/-- C6 (confirmed): `Measure.resize` is the identity at the current
resolution; otherwise it rebuilds an all-empty `new_steps`-step grid — so
the result has `steps_per_bar = new_steps` and contains no `Hold` cell
anywhere — and re-places every collected head at
`min(new_steps - 1, round(t * new_steps / old_steps))`: a destination hit
by no head stays `Empty`, a destination hit by one or more heads holds
the kind and fret of the last hit in collection order, and the hits on
one string are listed in strictly increasing old-step order, so the head
with the largest old step silently overwrites the others. -/
theorem C6_resize_rescale (m : Measure) (n : Nat) (hne : n ≠ m.steps_per_bar) :
    m.resize m.steps_per_bar = m ∧
    (m.resize n).steps_per_bar = n ∧
    (∀ s d, ((m.resize n).getCell s d).kind ≠ Kind.hold) ∧
    (∀ s d, s < 6 → d < n →
      ((m.heads.filter
          (fun h => decide (h.1 = s ∧ resize_dest m.steps_per_bar n h.2.1 = d))).getLast?
            = none →
        (m.resize n).getCell s d = Cell.mkEmpty) ∧
      ∀ hh, (m.heads.filter
          (fun h => decide (h.1 = s ∧ resize_dest m.steps_per_bar n h.2.1 = d))).getLast?
            = some hh →
        (m.resize n).getCell s d = ⟨hh.2.2.1, hh.2.2.2⟩) ∧
    (∀ s d, (m.heads.filter
        (fun h => decide (h.1 = s ∧ resize_dest m.steps_per_bar n h.2.1 = d))).Pairwise
        (fun a b => a.2.1 < b.2.1)) := by
  have hlen : (Measure.mk n (List.replicate 6 (List.replicate n Cell.mkEmpty))).grid.length
      = 6 := by
    show (List.replicate 6 (List.replicate n Cell.mkEmpty)).length = 6
    exact List.length_replicate 6 _
  have hrow : ∀ u, u < 6 →
      ((Measure.mk n (List.replicate 6 (List.replicate n Cell.mkEmpty))).grid.getD
        u []).length = n := by
    intro u hu
    show ((List.replicate 6 (List.replicate n Cell.mkEmpty)).getD u []).length = n
    rw [getD_replicate_lt _ _ hu]
    exact List.length_replicate n _
  refine ⟨?_, ?_, ?_, ?_, ?_⟩
  · simp [Measure.resize]
  · rw [resize_eq_fold m n hne, resize_fold_steps]
  · intro s d
    rw [resize_eq_fold m n hne,
      resize_fold_getCell m.steps_per_bar n m.heads _ hlen hrow s d]
    rcases hlast : (m.heads.filter
        (fun h => decide (h.1 = s ∧ resize_dest m.steps_per_bar n h.2.1 = d))).getLast? with
      _ | hh
    · rw [hlast]
      show ((Measure.mk n (List.replicate 6 (List.replicate n Cell.mkEmpty))).getCell
        s d).kind ≠ Kind.hold
      rw [rebuilt_getCell]
      decide
    · rw [hlast]
      dsimp only
      by_cases ho : s < 6 ∧ d < n
      · rw [if_pos ho]
        have hmem : hh ∈ m.heads :=
          List.mem_of_mem_filter (List.mem_of_mem_getLast? hlast)
        show hh.2.2.1 ≠ Kind.hold
        rcases heads_kind m hh hmem with hk | hk <;> rw [hk] <;> decide
      · rw [if_neg ho, rebuilt_getCell]
        decide
  · intro s d hs hd
    rw [resize_eq_fold m n hne,
      resize_fold_getCell m.steps_per_bar n m.heads _ hlen hrow s d]
    constructor
    · intro hnone
      rw [hnone]
      exact rebuilt_getCell n s d
    · intro hh hsome
      rw [hsome]
      dsimp only
      rw [if_pos ⟨hs, hd⟩]
  · intro s d
    refine List.Pairwise.imp_of_mem ?_
      ((heads_pairwise m).filter
        (fun h => decide (h.1 = s ∧ resize_dest m.steps_per_bar n h.2.1 = d)))
    intro a b ha hb hR
    have ha' := List.of_mem_filter ha
    have hb' := List.of_mem_filter hb
    simp only [decide_eq_true_eq] at ha' hb'
    exact hR (ha'.1.trans hb'.1.symm)

theorem C6_witness :
    collideMeasure.resize collideMeasure.steps_per_bar = collideMeasure ∧
    (collideMeasure.resize 4).steps_per_bar = 4 ∧
    ((collideMeasure.resize 4).getCell 0 1).kind ≠ Kind.hold ∧
    (collideMeasure.resize 4).getCell 0 1 = ⟨Kind.note, some 9⟩ ∧
    (collideMeasure.resize 4).getCell 0 0 = Cell.mkEmpty ∧
    List.Pairwise (fun a b => a.2.1 < b.2.1)
      (collideMeasure.heads.filter
        (fun h => decide (h.1 = 0 ∧ resize_dest collideMeasure.steps_per_bar 4 h.2.1 = 1))) := by
  have h := C6_resize_rescale collideMeasure 4 (by decide)
  refine ⟨h.1, h.2.1, h.2.2.1 0 1, ?_, ?_, h.2.2.2.2 0 1⟩
  · exact (h.2.2.2.1 0 1 (by decide) (by decide)).2 (0, 5, Kind.note, some 9) (by decide)
  · exact (h.2.2.2.1 0 0 (by decide) (by decide)).1 (by decide)

end Tab
